import Mathlib

/-!
# Intel 4004 assembler (`src/asm.c`): encoding engine

A shallow embedding of the instruction table, `find_instruction`, `emit_byte`
and `assemble_line` of `src/asm.c`, followed by theorems about them.

Modelling conventions.

* The globals `code[MAX_CODE]` and `code_pos` form the `State`.  `code` is a map
  from index to byte; `code_pos` is only ever incremented from `0`, so it is a
  natural number.
* `error(msg)` prints `msg` and calls `exit(1)`: it is a `Halt` carrying the
  message and the globals at the moment the process stops.
* `assemble_line` begins with `sscanf_s(line, "%s %x %x", ...)`, a C library
  call.  Its effect is represented by `Scanned`: the value it returned and the
  contents of the locals `mnemonic`, `mod1`, `mod2` after the call.  A local
  that the call did not assign holds an indeterminate value, so the theorems
  quantify over it.
* `int` values are `Int`; the conversion to `unsigned char` at a call of
  `emit_byte` is reduction modulo `256`.
* The loop of `assemble_file` is `assemble_file_step` for one line read by
  `fgets`, and `assemble_lines` for the sequence of `assemble_line` calls it
  makes.
-/

namespace I4004

/-- The constant `MAX_CODE`. -/
def MAX_CODE : Nat := 4096

/-- The enumeration `WordFormat`. -/
inductive WordFormat where
  | NONE
  | ADDRESS
  | DATA
  | OPCODE
  | OPCODE_COND
  | OPCODE_ADDR
  | OPCODE_DATA
  | OPCODE_REGPAIR_0
  | OPCODE_REGPAIR_1
  | OPCODE_REGISTER
  deriving DecidableEq, Repr

/-- The struct `Instruction`. -/
structure Instruction where
  mnemonic : String
  opcode : Nat
  num_modifiers : Int
  word0_format : WordFormat
  word1_format : WordFormat
  deriving DecidableEq, Repr

open WordFormat in
/-- The table `instructions`, without its terminating `NULL` entry (the end of
the list plays that part). -/
def instructions : List Instruction :=
  [ ⟨"NOP", 0x00, 0, NONE,             NONE⟩,
    ⟨"JCN", 0x01, 2, OPCODE_COND,      ADDRESS⟩,
    ⟨"FIM", 0x02, 2, OPCODE_REGPAIR_0, DATA⟩,
    ⟨"SRC", 0x02, 1, OPCODE_REGPAIR_1, NONE⟩,
    ⟨"FIN", 0x03, 1, OPCODE_REGPAIR_0, NONE⟩,
    ⟨"JIN", 0x03, 1, OPCODE_REGPAIR_1, NONE⟩,
    ⟨"JUN", 0x04, 1, OPCODE_ADDR,      ADDRESS⟩,
    ⟨"JMS", 0x05, 1, OPCODE_ADDR,      ADDRESS⟩,
    ⟨"INC", 0x06, 1, OPCODE_REGISTER,  NONE⟩,
    ⟨"ISZ", 0x07, 2, OPCODE_REGISTER,  ADDRESS⟩,
    ⟨"ADD", 0x08, 1, OPCODE_REGISTER,  NONE⟩,
    ⟨"SUB", 0x09, 1, OPCODE_REGISTER,  NONE⟩,
    ⟨"LD",  0x0A, 1, OPCODE_REGISTER,  NONE⟩,
    ⟨"XCH", 0x0B, 1, OPCODE_REGISTER,  NONE⟩,
    ⟨"BBL", 0x0C, 1, OPCODE_DATA,      NONE⟩,
    ⟨"LDM", 0x0D, 1, OPCODE_DATA,      NONE⟩,
    ⟨"CLB", 0xF0, 0, OPCODE,           NONE⟩,
    ⟨"CLC", 0xF1, 0, OPCODE,           NONE⟩,
    ⟨"IAC", 0xF2, 0, OPCODE,           NONE⟩,
    ⟨"CMC", 0xF3, 0, OPCODE,           NONE⟩,
    ⟨"CMA", 0xF4, 0, OPCODE,           NONE⟩,
    ⟨"RAL", 0xF5, 0, OPCODE,           NONE⟩,
    ⟨"RAR", 0xF6, 0, OPCODE,           NONE⟩,
    ⟨"TCC", 0xF7, 0, OPCODE,           NONE⟩,
    ⟨"DAC", 0xF8, 0, OPCODE,           NONE⟩,
    ⟨"TCS", 0xF9, 0, OPCODE,           NONE⟩,
    ⟨"STC", 0xFA, 0, OPCODE,           NONE⟩,
    ⟨"DAA", 0xFB, 0, OPCODE,           NONE⟩,
    ⟨"KBP", 0xFC, 0, OPCODE,           NONE⟩,
    ⟨"DCL", 0xFD, 0, OPCODE,           NONE⟩,
    ⟨"WRM", 0xE0, 0, OPCODE,           NONE⟩,
    ⟨"WMP", 0xE1, 0, OPCODE,           NONE⟩,
    ⟨"WRR", 0xE2, 0, OPCODE,           NONE⟩,
    ⟨"WPM", 0xE3, 0, OPCODE,           NONE⟩,
    ⟨"WR0", 0xE4, 0, OPCODE,           NONE⟩,
    ⟨"WR1", 0xE5, 0, OPCODE,           NONE⟩,
    ⟨"WR2", 0xE6, 0, OPCODE,           NONE⟩,
    ⟨"WR3", 0xE7, 0, OPCODE,           NONE⟩,
    ⟨"SBM", 0xE8, 0, OPCODE,           NONE⟩,
    ⟨"RDM", 0xE9, 0, OPCODE,           NONE⟩,
    ⟨"RDR", 0xEA, 0, OPCODE,           NONE⟩,
    ⟨"ADM", 0xEB, 0, OPCODE,           NONE⟩,
    ⟨"RD0", 0xEC, 0, OPCODE,           NONE⟩,
    ⟨"RD1", 0xED, 0, OPCODE,           NONE⟩,
    ⟨"RD2", 0xEE, 0, OPCODE,           NONE⟩,
    ⟨"RD3", 0xEF, 0, OPCODE,           NONE⟩ ]

/-- The globals `code` and `code_pos`. -/
structure State where
  code : Nat → Nat
  code_pos : Nat

/-- The globals at program start: a zeroed `code` array and `code_pos = 0`. -/
def State.init : State := ⟨fun _ => 0, 0⟩

/-- The bytes `code[0 .. code_pos)`, which `save_output` writes to the file. -/
def State.bytes (s : State) : List Nat :=
  (List.range s.code_pos).map s.code

/-- The process stopped by `error(msg)`: the message printed and the globals
at that moment. -/
structure Halt where
  msg : String
  state : State

/-- The function `error`: print the message, `exit(1)`. -/
def error {α : Type} (msg : String) (s : State) : Except Halt α :=
  Except.error ⟨msg, s⟩

/-- The loop of `find_instruction`, at index `i` with `rest` the entries from
`i` on. -/
def find_instruction_from (mnemonic : String) : List Instruction → Nat → Int
  | [], _ => -1
  | inst :: rest, i =>
    if mnemonic = inst.mnemonic then (i : Int)
    else find_instruction_from mnemonic rest (i + 1)

/-- The function `find_instruction`. -/
def find_instruction (mnemonic : String) : Int :=
  find_instruction_from mnemonic instructions 0

/-- The function `emit_byte`; `byte` is the `unsigned char` argument. -/
def emit_byte (byte : Nat) (s : State) : Except Halt State :=
  if s.code_pos ≥ MAX_CODE then
    error "Code memory overflow" s
  else
    Except.ok ⟨Function.update s.code s.code_pos byte, s.code_pos + 1⟩

/-- The conversion of an `int` argument to `unsigned char`. -/
def to_uchar (v : Int) : Nat := (v % 256).toNat

/-- The outcome of `sscanf_s(line, "%s %x %x", mnemonic, 8, &mod1, &mod2)`: the
value returned and the locals after the call. -/
structure Scanned where
  num_mods : Int
  mnemonic : String
  mod1 : Int
  mod2 : Int

/-- The first `switch` of `assemble_line`, on `inst->word0_format`. -/
def emit_word0 (inst : Instruction) (mod1 : Int) (s : State) : Except Halt State :=
  match inst.word0_format with
  | .NONE => Except.ok s
  | .OPCODE => emit_byte inst.opcode s
  | .OPCODE_COND | .OPCODE_ADDR | .OPCODE_DATA | .OPCODE_REGISTER =>
    emit_byte (to_uchar
      (Int.lor ((Int.land inst.opcode 0x0F) <<< (4 : Int)) (Int.land mod1 0x0F))) s
  | .OPCODE_REGPAIR_0 =>
    emit_byte (to_uchar
      (Int.lor ((Int.land inst.opcode 0x0F) <<< (4 : Int))
        ((Int.land mod1 0x07) <<< (1 : Int)))) s
  | .OPCODE_REGPAIR_1 =>
    emit_byte (to_uchar
      (Int.lor
        (Int.lor ((Int.land inst.opcode 0x0F) <<< (4 : Int))
          ((Int.land mod1 0x07) <<< (1 : Int)))
        0x01)) s
  | _ => Except.ok s

/-- The second `switch` of `assemble_line`, on `inst->word1_format`. -/
def emit_word1 (inst : Instruction) (mod2 : Int) (s : State) : Except Halt State :=
  match inst.word1_format with
  | .NONE => Except.ok s
  | .ADDRESS | .DATA => emit_byte (to_uchar mod2) s
  | _ => Except.ok s

/-- The entry `{NULL, 0, 0, NONE, NONE}` that ends the C array; it is what an
index past the last real entry reads. -/
def instructions_end : Instruction := ⟨"", 0, 0, .NONE, .NONE⟩

/-- The function `assemble_line`, from the result of its `sscanf_s` call on. -/
def assemble_line (sc : Scanned) (s : State) : Except Halt State :=
  let inst_idx := find_instruction sc.mnemonic
  if inst_idx = -1 then
    error "Invalid mnemonic" s
  else
    let inst := instructions.getD inst_idx.toNat instructions_end
    if (sc.num_mods - 1) > inst.num_modifiers then
      error "Too many modifiers" s
    else if (sc.num_mods - 1) < inst.num_modifiers then
      error "Too few modifiers" s
    else
      emit_word0 inst sc.mod1 s >>= emit_word1 inst sc.mod2

/-- The globals when a call has ended, whether it returned or stopped in
`error`. -/
def globals_after : Except Halt State → State
  | .ok s => s
  | .error h => h.state

/-- The sequence of `assemble_line` calls that the loop of `assemble_file`
makes, one per line that reaches it, in file order; an `error` ends the run. -/
def assemble_lines : List Scanned → State → Except Halt State
  | [], s => Except.ok s
  | sc :: rest, s => assemble_line sc s >>= assemble_lines rest

/-- The statement `line[strcspn(line, "\n;")] = 0`: the text of the line before
its first newline or semicolon. -/
def strip_line (line : List Char) : List Char :=
  line.takeWhile fun c => c ≠ '\n' ∧ c ≠ ';'

/-- The body of the `while` loop of `assemble_file` for one line read by
`fgets`.  The parameter `scan` stands for the `sscanf_s` call that
`assemble_line` would make on the stripped text. -/
def assemble_file_step (scan : List Char → Scanned) (line : List Char) (s : State) :
    Except Halt State :=
  let line := strip_line line
  if line.length > 0 then
    assemble_line (scan line) s
  else
    Except.ok s

/-- The bytes of a line assembled on its own from the empty buffer. -/
def line_bytes (sc : Scanned) : List Nat :=
  (globals_after (assemble_line sc State.init)).bytes

/-- A run of consecutive `emit_byte` calls, one per listed byte. -/
def emit_bytes : List Nat → State → Except Halt State
  | [], s => Except.ok s
  | b :: bs, s => emit_byte b s >>= emit_bytes bs

/-- Following the spec's words: a format tag consumes an operand unless it is
`NONE` or `OPCODE`. -/
def consumes_operand (f : WordFormat) : Bool :=
  f ≠ WordFormat.NONE ∧ f ≠ WordFormat.OPCODE

/-- Following the spec's words: the number of operand-consuming tags among
`word0_format` and `word1_format`. -/
def operand_tags (inst : Instruction) : Int :=
  (if consumes_operand inst.word0_format then 1 else 0) +
  (if consumes_operand inst.word1_format then 1 else 0)

/-- The high nibble of the byte that the first switch emits for an entry; the
operand plays no part in it. -/
def high_nibble (inst : Instruction) : Nat :=
  if inst.word0_format = WordFormat.OPCODE then inst.opcode / 16 else inst.opcode % 16

/-- Two outcomes of `sscanf_s` on one and the same source line, in two calls:
the value returned is the same and so is every local that the call assigned
(`mnemonic` from 1 on, `mod1` from 2 on, `mod2` at 3); a local it did not assign
holds whatever each call found there. -/
def same_line (a b : Scanned) : Prop :=
  a.num_mods = b.num_mods ∧
  (a.num_mods ≥ 1 → a.mnemonic = b.mnemonic) ∧
  (a.num_mods ≥ 2 → a.mod1 = b.mod1) ∧
  (a.num_mods ≥ 3 → a.mod2 = b.mod2)

/-! ## Arithmetic of the bit operations -/

theorem ldiff_mask (k n : Nat) : Nat.ldiff (2 ^ k - 1) n = 2 ^ k - 1 - n % 2 ^ k := by
  apply Nat.eq_of_testBit_eq
  intro i
  have h : n % 2 ^ k < 2 ^ k := Nat.mod_lt _ (by positivity)
  have e : 2 ^ k - 1 - n % 2 ^ k = 2 ^ k - (n % 2 ^ k + 1) := by omega
  rw [e, Nat.testBit_two_pow_sub_succ h, Nat.testBit_mod_two_pow, Nat.testBit_ldiff,
    Nat.testBit_two_pow_sub_one]
  by_cases hi : i < k <;> simp [hi]

/-- Masking an `int` with `2^k - 1` keeps its residue modulo `2^k`, also for a
negative value (two's complement). -/
theorem land_mask (x : Int) (k : Nat) : Int.land x ((2 ^ k - 1 : Nat) : Int) = x % 2 ^ k := by
  cases x with
  | ofNat n =>
    show ((n &&& (2 ^ k - 1) : Nat) : Int) = _
    rw [Nat.and_pow_two_sub_one_eq_mod]
    simp
  | negSucc n =>
    show ((Nat.ldiff (2 ^ k - 1) n : Nat) : Int) = _
    rw [ldiff_mask]
    have h : n % 2 ^ k < 2 ^ k := Nat.mod_lt _ (by positivity)
    rw [Int.negSucc_emod _ (by positivity)]
    have e : ((n : Int) % 2 ^ k) = ((n % 2 ^ k : Nat) : Int) := by push_cast; rfl
    have p : ((2 : Int) ^ k) = ((2 ^ k : Nat) : Int) := by push_cast; rfl
    rw [e, p]
    omega

theorem land_0F (x : Int) : Int.land x 0x0F = x % 16 := by
  simpa using land_mask x 4

theorem land_07 (x : Int) : Int.land x 0x07 = x % 8 := by
  simpa using land_mask x 3

theorem land_FF (x : Int) : Int.land x 0xFF = x % 256 := by
  simpa using land_mask x 8

theorem lor_shift (a b : Nat) (k : Nat) (hb : b < 2 ^ k) :
    Int.lor ((a : Int) <<< (k : Int)) (b : Int) = ((a * 2 ^ k + b : Nat) : Int) := by
  rw [Int.shiftLeft_coe_nat]
  show (((a <<< k) ||| b : Nat) : Int) = _
  rw [Nat.shiftLeft_eq, Nat.mul_comm, ← Nat.mul_add_lt_is_or hb]

theorem emod_toNat (x : Int) (n : Nat) (hn : 0 < n) :
    x % (n : Int) = (((x % (n : Int)).toNat : Nat) : Int) := by
  have : 0 ≤ x % (n : Int) := Int.emod_nonneg _ (by omega)
  omega

theorem emod_toNat_lt (x : Int) (n : Nat) (hn : 0 < n) : (x % (n : Int)).toNat < n := by
  have h0 : 0 ≤ x % (n : Int) := Int.emod_nonneg _ (by omega)
  have h1 : x % (n : Int) < n := Int.emod_lt_of_pos _ (by omega)
  omega

theorem shift_one (n : Nat) : ((n : Nat) : Int) <<< (1 : Int) = ((2 * n : Nat) : Int) := by
  have h := Int.shiftLeft_coe_nat n 1
  simp only [Nat.cast_one] at h
  rw [h, Nat.shiftLeft_eq]
  congr 1
  omega

/-- The value of `opc << 4 | (m & 0x0F)`. -/
theorem lor_nibble (opc : Nat) (m : Int) :
    Int.lor ((opc : Int) <<< (4 : Int)) (Int.land m 0x0F)
      = ((opc * 16 + (m % 16).toNat : Nat) : Int) := by
  have hm := emod_toNat m 16 (by norm_num)
  have hl := emod_toNat_lt m 16 (by norm_num)
  have key := lor_shift opc (m % 16).toNat 4 (by simpa using hl)
  simp only [Nat.cast_ofNat] at key hm
  rw [land_0F, hm, key]
  norm_num

/-- The value of `opc << 4 | ((m & 0x07) << 1)`. -/
theorem lor_pair0 (opc : Nat) (m : Int) :
    Int.lor ((opc : Int) <<< (4 : Int)) ((Int.land m 0x07) <<< (1 : Int))
      = ((opc * 16 + 2 * (m % 8).toNat : Nat) : Int) := by
  have hm := emod_toNat m 8 (by norm_num)
  have hl := emod_toNat_lt m 8 (by norm_num)
  have key := lor_shift opc (2 * (m % 8).toNat) 4 (by norm_num; omega)
  simp only [Nat.cast_ofNat] at key hm
  rw [land_07, hm, shift_one, key]
  norm_num

/-- The value of `opc << 4 | ((m & 0x07) << 1) | 0x01`. -/
theorem lor_pair1 (opc : Nat) (m : Int) :
    Int.lor (Int.lor ((opc : Int) <<< (4 : Int)) ((Int.land m 0x07) <<< (1 : Int))) 0x01
      = ((opc * 16 + 2 * (m % 8).toNat + 1 : Nat) : Int) := by
  rw [lor_pair0]
  have e : opc * 16 + 2 * (m % 8).toNat = 2 ^ 1 * (opc * 8 + (m % 8).toNat) := by omega
  rw [e]
  show (((2 ^ 1 * (opc * 8 + (m % 8).toNat)) ||| 1 : Nat) : Int) = _
  rw [← Nat.mul_add_lt_is_or (by norm_num)]

theorem land_opcode (opc : Nat) : Int.land (opc : Int) 0x0F = ((opc % 16 : Nat) : Int) := by
  rw [land_0F]
  push_cast
  rfl

theorem to_uchar_small (n : Nat) (h : n < 256) : to_uchar (n : Int) = n := by
  unfold to_uchar
  omega

/-- The byte built for `OPCODE_COND`, `OPCODE_ADDR`, `OPCODE_DATA` and
`OPCODE_REGISTER`. -/
theorem word0_nibble (opc : Nat) (m : Int) :
    to_uchar (Int.lor ((Int.land (opc : Int) 0x0F) <<< (4 : Int)) (Int.land m 0x0F))
      = opc % 16 * 16 + (m % 16).toNat := by
  have hl := emod_toNat_lt m 16 (by norm_num)
  have ho : opc % 16 < 16 := Nat.mod_lt _ (by norm_num)
  simp only [Nat.cast_ofNat] at hl
  rw [land_opcode, lor_nibble, to_uchar_small _ (by omega)]

/-- The byte built for `OPCODE_REGPAIR_0`. -/
theorem word0_pair0 (opc : Nat) (m : Int) :
    to_uchar (Int.lor ((Int.land (opc : Int) 0x0F) <<< (4 : Int))
        ((Int.land m 0x07) <<< (1 : Int)))
      = opc % 16 * 16 + 2 * (m % 8).toNat := by
  have hl := emod_toNat_lt m 8 (by norm_num)
  have ho : opc % 16 < 16 := Nat.mod_lt _ (by norm_num)
  simp only [Nat.cast_ofNat] at hl
  rw [land_opcode, lor_pair0, to_uchar_small _ (by omega)]

/-- The byte built for `OPCODE_REGPAIR_1`. -/
theorem word0_pair1 (opc : Nat) (m : Int) :
    to_uchar (Int.lor (Int.lor ((Int.land (opc : Int) 0x0F) <<< (4 : Int))
        ((Int.land m 0x07) <<< (1 : Int))) 0x01)
      = opc % 16 * 16 + 2 * (m % 8).toNat + 1 := by
  have hl := emod_toNat_lt m 8 (by norm_num)
  have ho : opc % 16 < 16 := Nat.mod_lt _ (by norm_num)
  simp only [Nat.cast_ofNat] at hl
  rw [land_opcode, lor_pair1, to_uchar_small _ (by omega)]

/-! ## The code buffer -/

theorem emit_byte_ok (b : Nat) (s : State) (h : s.code_pos < MAX_CODE) :
    emit_byte b s = Except.ok ⟨Function.update s.code s.code_pos b, s.code_pos + 1⟩ := by
  unfold emit_byte
  rw [if_neg (by omega)]

theorem emit_byte_full (b : Nat) (s : State) (h : MAX_CODE ≤ s.code_pos) :
    emit_byte b s = Except.error ⟨"Code memory overflow", s⟩ := by
  unfold emit_byte
  rw [if_pos h]
  rfl

/-- Storing at `code_pos` and incrementing it appends one byte to
`code[0 .. code_pos)`. -/
theorem bytes_push (c : Nat → Nat) (p b : Nat) :
    State.bytes ⟨Function.update c p b, p + 1⟩ = State.bytes ⟨c, p⟩ ++ [b] := by
  simp only [State.bytes, List.range_succ, List.map_append, List.map_cons, List.map_nil,
    Function.update_same]
  congr 1
  apply List.map_congr_left
  intro i hi
  have : i ≠ p := by
    have := List.mem_range.mp hi
    omega
  exact Function.update_noteq this _ _

/-! ## The table and the header of `assemble_line` -/

set_option maxRecDepth 100000 in
/-- Looking up the mnemonic of a table entry finds that very entry. -/
theorem find_instruction_table :
    ∀ inst ∈ instructions,
      find_instruction inst.mnemonic ≠ -1 ∧
      instructions.getD (find_instruction inst.mnemonic).toNat instructions_end = inst := by
  decide

/-- For the mnemonic of a table entry, `assemble_line` is the arity check on
that entry followed by the two switches. -/
theorem assemble_line_entry (inst : Instruction) (hin : inst ∈ instructions)
    (sc : Scanned) (hm : sc.mnemonic = inst.mnemonic) (s : State) :
    assemble_line sc s =
      if (sc.num_mods - 1) > inst.num_modifiers then error "Too many modifiers" s
      else if (sc.num_mods - 1) < inst.num_modifiers then error "Too few modifiers" s
      else emit_word0 inst sc.mod1 s >>= emit_word1 inst sc.mod2 := by
  obtain ⟨h1, h2⟩ := find_instruction_table inst hin
  unfold assemble_line
  simp only [hm, h2]
  rw [if_neg h1]

/-- With exactly the required number of operands, `assemble_line` is the two
switches. -/
theorem assemble_line_exact (inst : Instruction) (hin : inst ∈ instructions)
    (sc : Scanned) (hm : sc.mnemonic = inst.mnemonic)
    (hn : sc.num_mods - 1 = inst.num_modifiers) (s : State) :
    assemble_line sc s = emit_word0 inst sc.mod1 s >>= emit_word1 inst sc.mod2 := by
  rw [assemble_line_entry inst hin sc hm s, if_neg (by omega), if_neg (by omega)]

/-! ## The two switches -/

theorem emit_word0_nibble (inst : Instruction)
    (hf : inst.word0_format = WordFormat.OPCODE_COND ∨
      inst.word0_format = WordFormat.OPCODE_ADDR ∨
      inst.word0_format = WordFormat.OPCODE_DATA ∨
      inst.word0_format = WordFormat.OPCODE_REGISTER)
    (m : Int) (s : State) :
    emit_word0 inst m s = emit_byte (inst.opcode % 16 * 16 + (m % 16).toNat) s := by
  unfold emit_word0
  rcases hf with h | h | h | h <;> rw [h] <;> simp only [word0_nibble]

theorem emit_word0_pair0 (inst : Instruction)
    (hf : inst.word0_format = WordFormat.OPCODE_REGPAIR_0) (m : Int) (s : State) :
    emit_word0 inst m s = emit_byte (inst.opcode % 16 * 16 + 2 * (m % 8).toNat) s := by
  unfold emit_word0
  rw [hf]
  simp only [word0_pair0]

theorem emit_word0_pair1 (inst : Instruction)
    (hf : inst.word0_format = WordFormat.OPCODE_REGPAIR_1) (m : Int) (s : State) :
    emit_word0 inst m s = emit_byte (inst.opcode % 16 * 16 + 2 * (m % 8).toNat + 1) s := by
  unfold emit_word0
  rw [hf]
  simp only [word0_pair1]

theorem emit_word0_opcode (inst : Instruction)
    (hf : inst.word0_format = WordFormat.OPCODE) (m : Int) (s : State) :
    emit_word0 inst m s = emit_byte inst.opcode s := by
  unfold emit_word0
  rw [hf]

theorem emit_word1_none (inst : Instruction)
    (hf : inst.word1_format = WordFormat.NONE) (m : Int) (s : State) :
    emit_word1 inst m s = Except.ok s := by
  unfold emit_word1
  rw [hf]

theorem emit_word1_operand (inst : Instruction)
    (hf : inst.word1_format = WordFormat.ADDRESS ∨ inst.word1_format = WordFormat.DATA)
    (m : Int) (s : State) :
    emit_word1 inst m s = emit_byte (to_uchar m) s := by
  unfold emit_word1
  rcases hf with h | h <;> rw [h]

/-- One byte emitted with room, then a first word of format `NONE` for the
second switch: the call returns with that byte appended. -/
theorem one_byte (inst : Instruction) (hw1 : inst.word1_format = WordFormat.NONE)
    (b : Nat) (m2 : Int) (s : State) (h : s.code_pos < MAX_CODE) :
    (emit_byte b s >>= emit_word1 inst m2)
      = Except.ok ⟨Function.update s.code s.code_pos b, s.code_pos + 1⟩ := by
  rw [emit_byte_ok b s h]
  show emit_word1 inst m2 _ = _
  rw [emit_word1_none inst hw1]

/-- One byte emitted, then the operand byte of the second switch, with room for
both. -/
theorem two_bytes (inst : Instruction)
    (hw1 : inst.word1_format = WordFormat.ADDRESS ∨ inst.word1_format = WordFormat.DATA)
    (b : Nat) (m2 : Int) (s : State) (h : s.code_pos + 2 ≤ MAX_CODE) :
    (emit_byte b s >>= emit_word1 inst m2)
      = Except.ok ⟨Function.update (Function.update s.code s.code_pos b) (s.code_pos + 1)
          (to_uchar m2), s.code_pos + 2⟩ := by
  rw [emit_byte_ok b s (by omega)]
  show emit_word1 inst m2 _ = _
  rw [emit_word1_operand inst hw1, emit_byte_ok _ _ (by show s.code_pos + 1 < MAX_CODE; omega)]

theorem bytes_push2 (c : Nat → Nat) (p b0 b1 : Nat) :
    State.bytes ⟨Function.update (Function.update c p b0) (p + 1) b1, p + 2⟩
      = State.bytes ⟨c, p⟩ ++ [b0, b1] := by
  rw [show p + 2 = (p + 1) + 1 from rfl, bytes_push, bytes_push, List.append_assoc]
  rfl

theorem code_first_of_two (c : Nat → Nat) (p b0 b1 : Nat) :
    Function.update (Function.update c p b0) (p + 1) b1 p = b0 := by
  rw [Function.update_noteq (by omega), Function.update_same]

/-- The entries whose first-word format is `OPCODE_REGPAIR_0`. -/
theorem regpair0_entries :
    ∀ inst ∈ instructions, inst.word0_format = WordFormat.OPCODE_REGPAIR_0 →
      inst = ⟨"FIM", 0x02, 2, .OPCODE_REGPAIR_0, .DATA⟩ ∨
      inst = ⟨"FIN", 0x03, 1, .OPCODE_REGPAIR_0, .NONE⟩ := by
  decide

/-- The entries whose first-word format is `OPCODE_REGPAIR_1`. -/
theorem regpair1_entries :
    ∀ inst ∈ instructions, inst.word0_format = WordFormat.OPCODE_REGPAIR_1 →
      inst = ⟨"SRC", 0x02, 1, .OPCODE_REGPAIR_1, .NONE⟩ ∨
      inst = ⟨"JIN", 0x03, 1, .OPCODE_REGPAIR_1, .NONE⟩ := by
  decide

/-- The entries whose first-word format packs the low nibble of `mod1`: their
opcode fits a nibble and their second word is absent or an address byte. -/
theorem nibble_entries :
    ∀ inst ∈ instructions,
      (inst.word0_format = WordFormat.OPCODE_COND ∨
        inst.word0_format = WordFormat.OPCODE_ADDR ∨
        inst.word0_format = WordFormat.OPCODE_DATA ∨
        inst.word0_format = WordFormat.OPCODE_REGISTER) →
      inst.opcode < 16 := by
  decide

/-- The entries whose first-word format is `OPCODE`. -/
theorem opcode_entries :
    ∀ inst ∈ instructions, inst.word0_format = WordFormat.OPCODE →
      inst.num_modifiers = 0 ∧ inst.word1_format = WordFormat.NONE ∧ inst.opcode < 256 ∧
      inst.mnemonic ∈
        ["CLB", "CLC", "IAC", "CMC", "CMA", "RAL", "RAR", "TCC", "DAC", "TCS",
         "STC", "DAA", "KBP", "DCL", "WRM", "WMP", "WRR", "WPM", "WR0", "WR1",
         "WR2", "WR3", "SBM", "RDM", "RDR", "ADM", "RD0", "RD1", "RD2", "RD3"] := by
  decide

/-- Once the first switch has stored a byte, that byte is in place when the call
ends, whether the second switch returns or stops on a full buffer. -/
theorem first_byte_kept (inst : Instruction) (b : Nat) (m2 : Int) (s : State)
    (h : s.code_pos < MAX_CODE) :
    (globals_after (emit_byte b s >>= emit_word1 inst m2)).code s.code_pos = b ∧
    s.code_pos < (globals_after (emit_byte b s >>= emit_word1 inst m2)).code_pos := by
  rw [emit_byte_ok b s h]
  show (globals_after (emit_word1 inst m2 _)).code s.code_pos = b ∧
    s.code_pos < (globals_after (emit_word1 inst m2 _)).code_pos
  have hnone : ∀ t : State, t = ⟨Function.update s.code s.code_pos b, s.code_pos + 1⟩ →
      (globals_after (Except.ok t : Except Halt State)).code s.code_pos = b ∧
      s.code_pos < (globals_after (Except.ok t : Except Halt State)).code_pos := by
    intro t ht
    subst ht
    exact ⟨Function.update_same _ _ _, Nat.lt_succ_self _⟩
  have hemit : ∀ c : Nat,
      (globals_after (emit_byte c
        ⟨Function.update s.code s.code_pos b, s.code_pos + 1⟩)).code s.code_pos = b ∧
      s.code_pos < (globals_after (emit_byte c
        ⟨Function.update s.code s.code_pos b, s.code_pos + 1⟩)).code_pos := by
    intro c
    by_cases hp : s.code_pos + 1 < MAX_CODE
    · rw [emit_byte_ok _ _ hp]
      refine ⟨?_, ?_⟩
      · show Function.update (Function.update s.code s.code_pos b) (s.code_pos + 1) c
          s.code_pos = b
        rw [code_first_of_two]
      · show s.code_pos < s.code_pos + 1 + 1
        omega
    · rw [emit_byte_full _ _ (by show MAX_CODE ≤ s.code_pos + 1; omega)]
      exact ⟨Function.update_same _ _ _, Nat.lt_succ_self _⟩
  unfold emit_word1
  cases inst.word1_format <;> first | exact hnone _ rfl | exact hemit _

/-! ## `find_instruction` -/

theorem find_from_not_found (m : String) (l : List Instruction) (i : Nat) :
    find_instruction_from m l i = -1 ↔ ∀ inst ∈ l, inst.mnemonic ≠ m := by
  induction l generalizing i with
  | nil => simp [find_instruction_from]
  | cons a rest ih =>
    unfold find_instruction_from
    by_cases h : m = a.mnemonic
    · rw [if_pos h]
      constructor
      · intro hi
        omega
      · intro hall
        exact absurd h.symm (hall a (List.mem_cons_self _ _))
    · rw [if_neg h, ih]
      constructor
      · intro hall inst hmem
        rcases List.mem_cons.mp hmem with rfl | hr
        · exact fun e => h e.symm
        · exact hall inst hr
      · intro hall inst hmem
        exact hall inst (List.mem_cons_of_mem _ hmem)

theorem find_from_found (m : String) (l : List Instruction) (i : Nat)
    (h : find_instruction_from m l i ≠ -1) :
    ∃ j : Nat, find_instruction_from m l i = ((i + j : Nat) : Int) ∧
      ∃ inst, l[j]? = some inst ∧ inst.mnemonic = m := by
  induction l generalizing i with
  | nil => exact absurd rfl h
  | cons a rest ih =>
    unfold find_instruction_from at h ⊢
    by_cases hm : m = a.mnemonic
    · rw [if_pos hm]
      exact ⟨0, rfl, a, by simp, hm.symm⟩
    · rw [if_neg hm] at h ⊢
      obtain ⟨j, hj, inst, hget, hinst⟩ := ih (i + 1) h
      refine ⟨j + 1, ?_, inst, ?_, hinst⟩
      · rw [hj]
        congr 1
        omega
      · simpa using hget

/-! ## The shape of a call -/

/-- A call of `assemble_line` either stops in its header, with a message that
depends on the scan alone and the globals untouched, or is the two switches on
one table entry. -/
theorem assemble_line_shape (sc : Scanned) :
    (∃ msg, msg ≠ "Code memory overflow" ∧
      ∀ t, assemble_line sc t = Except.error ⟨msg, t⟩) ∨
    (∃ inst, ∀ t, assemble_line sc t = emit_word0 inst sc.mod1 t >>= emit_word1 inst sc.mod2) := by
  unfold assemble_line
  by_cases h1 : find_instruction sc.mnemonic = -1
  · left
    refine ⟨"Invalid mnemonic", by decide, fun t => ?_⟩
    simp only [h1, if_true]
    rfl
  · by_cases h2 : sc.num_mods - 1 >
        (instructions.getD (find_instruction sc.mnemonic).toNat instructions_end).num_modifiers
    · left
      refine ⟨"Too many modifiers", by decide, fun t => ?_⟩
      simp only [h1, h2, if_true, if_false]
      rfl
    · by_cases h3 : sc.num_mods - 1 <
          (instructions.getD (find_instruction sc.mnemonic).toNat instructions_end).num_modifiers
      · left
        refine ⟨"Too few modifiers", by decide, fun t => ?_⟩
        simp only [h1, h2, h3, if_true, if_false]
        rfl
      · right
        refine ⟨instructions.getD (find_instruction sc.mnemonic).toNat instructions_end,
          fun t => ?_⟩
        simp only [h1, h2, h3, if_false]

/-- The first switch either emits nothing or emits one byte that does not
depend on the globals. -/
theorem emit_word0_shape (inst : Instruction) (m : Int) :
    (∀ t, emit_word0 inst m t = Except.ok t) ∨ (∃ b, ∀ t, emit_word0 inst m t = emit_byte b t) := by
  unfold emit_word0
  cases inst.word0_format
  case NONE => exact Or.inl fun _ => rfl
  case ADDRESS => exact Or.inl fun _ => rfl
  case DATA => exact Or.inl fun _ => rfl
  all_goals exact Or.inr ⟨_, fun _ => rfl⟩

/-- The second switch either emits nothing or emits one byte that does not
depend on the globals. -/
theorem emit_word1_shape (inst : Instruction) (m : Int) :
    (∀ t, emit_word1 inst m t = Except.ok t) ∨ (∃ b, ∀ t, emit_word1 inst m t = emit_byte b t) := by
  unfold emit_word1
  cases inst.word1_format
  case ADDRESS => exact Or.inr ⟨_, fun _ => rfl⟩
  case DATA => exact Or.inr ⟨_, fun _ => rfl⟩
  all_goals exact Or.inl fun _ => rfl

/-- Every table entry other than `NOP` emits a first byte, and its second word
is absent or an operand byte. -/
theorem entries_emit :
    ∀ inst ∈ instructions, inst.mnemonic ≠ "NOP" →
      (inst.word0_format ≠ WordFormat.NONE ∧ inst.word0_format ≠ WordFormat.ADDRESS ∧
        inst.word0_format ≠ WordFormat.DATA) ∧
      (inst.word1_format = WordFormat.NONE ∨ inst.word1_format = WordFormat.ADDRESS ∨
        inst.word1_format = WordFormat.DATA) := by
  decide

theorem emit_word0_emits (inst : Instruction)
    (h : inst.word0_format ≠ WordFormat.NONE ∧ inst.word0_format ≠ WordFormat.ADDRESS ∧
      inst.word0_format ≠ WordFormat.DATA) (m : Int) :
    ∃ b, ∀ t, emit_word0 inst m t = emit_byte b t := by
  obtain ⟨h1, h2, h3⟩ := h
  unfold emit_word0
  cases hf : inst.word0_format
  case NONE => exact absurd hf h1
  case ADDRESS => exact absurd hf h2
  case DATA => exact absurd hf h3
  all_goals exact ⟨_, fun _ => rfl⟩

/-! ## Capacity -/

theorem bind_ok_right (x : Except Halt State) : (x >>= fun t => Except.ok t) = x := by
  cases x <;> rfl

/-- One `emit_byte`: the capacity error exactly when no byte fits. -/
theorem capacity_one (b : Nat) (s : State) :
    ((∃ g, emit_byte b s = Except.error ⟨"Code memory overflow", g⟩)
        ↔ s.code_pos + 1 > MAX_CODE) ∧
    (s.code_pos + 1 ≤ MAX_CODE →
      ∃ s', emit_byte b s = Except.ok s' ∧ s'.code_pos = s.code_pos + 1) := by
  by_cases h : s.code_pos < MAX_CODE
  · rw [emit_byte_ok b s h]
    refine ⟨⟨?_, ?_⟩, fun _ => ⟨_, rfl, rfl⟩⟩
    · rintro ⟨g, hg⟩
      cases hg
    · intro h2
      omega
  · rw [emit_byte_full b s (by omega)]
    refine ⟨⟨fun _ => by omega, fun _ => ⟨s, rfl⟩⟩, fun h2 => ?_⟩
    omega

/-- Two `emit_byte` calls in a row: the capacity error exactly when two bytes
do not fit. -/
theorem capacity_two (b0 b1 : Nat) (s : State) :
    ((∃ g, (emit_byte b0 s >>= emit_byte b1) = Except.error ⟨"Code memory overflow", g⟩)
        ↔ s.code_pos + 2 > MAX_CODE) ∧
    (s.code_pos + 2 ≤ MAX_CODE →
      ∃ s', (emit_byte b0 s >>= emit_byte b1) = Except.ok s' ∧
        s'.code_pos = s.code_pos + 2) := by
  by_cases h : s.code_pos < MAX_CODE
  · rw [emit_byte_ok b0 s h]
    show ((∃ g, emit_byte b1 _ = _) ↔ _) ∧ (_ → ∃ s', emit_byte b1 _ = _ ∧ _)
    by_cases h1 : s.code_pos + 1 < MAX_CODE
    · rw [emit_byte_ok b1 _ h1]
      refine ⟨⟨?_, ?_⟩, fun _ => ⟨_, rfl, rfl⟩⟩
      · rintro ⟨g, hg⟩
        cases hg
      · intro h2
        omega
    · rw [emit_byte_full b1 _ (by show MAX_CODE ≤ s.code_pos + 1; omega)]
      refine ⟨⟨fun _ => by omega, fun _ => ⟨_, rfl⟩⟩, fun h2 => ?_⟩
      omega
  · rw [emit_byte_full b0 s (by omega)]
    refine ⟨⟨fun _ => by omega, fun _ => ⟨s, rfl⟩⟩, fun h2 => ?_⟩
    omega

/-! ## Claims -/

/-- C1 (the code departs from the claim). The table gives `JUN` one required
operand, so a `JUN` line with two parsed operands never appends
`[0x40 | (a_hi & 0x0F), a_lo & 0xFF]`: it stops with "Too many modifiers" and
the globals untouched.  The line the arity check accepts, `JUN a_hi`, appends
the first byte and then the low byte of `mod2`, a local that `sscanf_s` did not
assign. -/
theorem C1_jun_two_operands_rejected (a_hi a_lo : Int) (s : State) :
    assemble_line ⟨3, "JUN", a_hi, a_lo⟩ s = Except.error ⟨"Too many modifiers", s⟩ ∧
    (assemble_line ⟨3, "JUN", 0x1, 0x23⟩ State.init).toOption = none ∧
    (globals_after (assemble_line ⟨2, "JUN", a_hi, a_lo⟩ State.init)).bytes
      = [64 + (a_hi % 16).toNat, (a_lo % 256).toNat] := by
  have hin : (⟨"JUN", 0x04, 1, .OPCODE_ADDR, .ADDRESS⟩ : Instruction) ∈ instructions := by
    decide
  refine ⟨?_, ?_, ?_⟩
  · rw [assemble_line_entry _ hin ⟨3, "JUN", a_hi, a_lo⟩ rfl s,
      if_pos (by show (3 : Int) - 1 > 1; decide)]
    rfl
  · rw [assemble_line_entry _ hin ⟨3, "JUN", 0x1, 0x23⟩ rfl State.init,
      if_pos (by show (3 : Int) - 1 > 1; decide)]
    rfl
  · rw [assemble_line_exact _ hin ⟨2, "JUN", a_hi, a_lo⟩ rfl
        (by show (2 : Int) - 1 = 1; decide) State.init,
      emit_word0_nibble _ (Or.inr (Or.inl rfl)),
      two_bytes _ (Or.inl rfl) _ _ _ (by decide)]
    show State.bytes ⟨_, 0 + 2⟩ = _
    rw [show State.init.code_pos = 0 from rfl, bytes_push2]
    rfl

/-- C2 (the code departs from the claim). The table gives `NOP` the first-word
format `NONE`, so the line `NOP` is accepted and appends nothing: the globals
are returned as they were, and from the empty buffer the output is empty, not
`[0x00]`. -/
theorem C2_nop_appends_nothing (m1 m2 : Int) (s : State) :
    assemble_line ⟨1, "NOP", m1, m2⟩ s = Except.ok s ∧
    (globals_after (assemble_line ⟨1, "NOP", m1, m2⟩ State.init)).bytes = [] := by
  have hin : (⟨"NOP", 0x00, 0, .NONE, .NONE⟩ : Instruction) ∈ instructions := by decide
  have h : ∀ t : State, assemble_line ⟨1, "NOP", m1, m2⟩ t = Except.ok t := by
    intro t
    rw [assemble_line_exact _ hin ⟨1, "NOP", m1, m2⟩ rfl
      (by show (1 : Int) - 1 = 0; decide) t]
    rfl
  refine ⟨h s, ?_⟩
  rw [h]
  rfl

/-- C3. A line whose mnemonic has first-word format `OPCODE_REGPAIR_0` (`FIM`,
`FIN`), with the required operand count and room in the buffer, is accepted,
and the first byte it appends is `opcode * 16 + 2 * (mod1 mod 8)`: the opcode in
the high nibble, the pair index shifted left by one, bit 0 clear.  For
`FIM r d` the bytes appended are exactly
`[0x20 | ((r & 0x07) << 1), d & 0xFF]`. -/
theorem C3_regpair0_layout (inst : Instruction) (hin : inst ∈ instructions)
    (hf : inst.word0_format = WordFormat.OPCODE_REGPAIR_0)
    (sc : Scanned) (hm : sc.mnemonic = inst.mnemonic)
    (hn : sc.num_mods - 1 = inst.num_modifiers)
    (s : State) (hroom : s.code_pos + 2 ≤ MAX_CODE) :
    ∃ s', assemble_line sc s = Except.ok s' ∧
      s.code_pos < s'.code_pos ∧
      s'.code s.code_pos = inst.opcode * 16 + 2 * (sc.mod1 % 8).toNat ∧
      s'.code s.code_pos / 16 = inst.opcode ∧
      s'.code s.code_pos % 16 = 2 * (sc.mod1 % 8).toNat ∧
      s'.code s.code_pos % 2 = 0 ∧
      (inst.mnemonic = "FIM" →
        sc.num_mods = 3 ∧ s'.code_pos = s.code_pos + 2 ∧
        s'.bytes = s.bytes ++
          [(Int.lor 0x20 ((Int.land sc.mod1 0x07) <<< (1 : Int))).toNat,
           (Int.land sc.mod2 0xFF).toNat]) := by
  have hl := emod_toNat_lt sc.mod1 8 (by norm_num)
  simp only [Nat.cast_ofNat] at hl
  rw [assemble_line_exact inst hin sc hm hn s, emit_word0_pair0 inst hf]
  rcases regpair0_entries inst hin hf with rfl | rfl
  · rw [two_bytes _ (Or.inr rfl) _ _ _ hroom]
    refine ⟨_, rfl, ?_, ?_, ?_, ?_, ?_, ?_⟩
    · show s.code_pos < s.code_pos + 2
      omega
    · dsimp only
      rw [code_first_of_two]
    · dsimp only
      rw [code_first_of_two]
      omega
    · dsimp only
      rw [code_first_of_two]
      omega
    · dsimp only
      rw [code_first_of_two]
      omega
    · intro _
      refine ⟨?_, rfl, ?_⟩
      · have : sc.num_mods - 1 = 2 := hn
        omega
      · have e := lor_pair0 2 sc.mod1
        rw [show ((2 : Nat) : Int) <<< (4 : Int) = 0x20 from by decide] at e
        rw [bytes_push2, e, land_FF]
        rfl
  · rw [one_byte _ rfl _ _ _ (by omega)]
    refine ⟨_, rfl, ?_, ?_, ?_, ?_, ?_, ?_⟩
    · show s.code_pos < s.code_pos + 1
      omega
    · simp only [Function.update_same]
    · simp only [Function.update_same]
      omega
    · simp only [Function.update_same]
      omega
    · simp only [Function.update_same]
      omega
    · intro h
      exact absurd h (by decide)

/-- C3 at `FIM 2 5A` from the empty buffer: the output is `[0x24, 0x5A]`. -/
theorem C3_regpair0_layout_witness :
    ∃ s', assemble_line ⟨3, "FIM", 0x2, 0x5A⟩ State.init = Except.ok s' ∧
      s'.code 0 = 0x24 ∧ s'.code_pos = 2 ∧ s'.bytes = [0x24, 0x5A] := by
  obtain ⟨s', h, _, h0, _, _, _, hfim⟩ :=
    C3_regpair0_layout ⟨"FIM", 0x02, 2, .OPCODE_REGPAIR_0, .DATA⟩ (by decide) rfl
      ⟨3, "FIM", 0x2, 0x5A⟩ rfl (by decide) State.init (by decide)
  obtain ⟨_, hp, hb⟩ := hfim rfl
  exact ⟨s', h, h0, hp, hb⟩

/-- C4. A line whose mnemonic has first-word format `OPCODE_REGPAIR_1` (`SRC`,
`JIN`), with the required operand count and room in the buffer, is accepted and
appends exactly one byte, `opcode * 16 + 2 * (mod1 mod 8) + 1`: the opcode in
the high nibble, the pair index shifted left by one, bit 0 set.  For `SRC r`
that byte is `0x20 | ((r & 0x07) << 1) | 0x01`. -/
theorem C4_regpair1_layout (inst : Instruction) (hin : inst ∈ instructions)
    (hf : inst.word0_format = WordFormat.OPCODE_REGPAIR_1)
    (sc : Scanned) (hm : sc.mnemonic = inst.mnemonic)
    (hn : sc.num_mods - 1 = inst.num_modifiers)
    (s : State) (hroom : s.code_pos < MAX_CODE) :
    ∃ s', assemble_line sc s = Except.ok s' ∧
      s'.code_pos = s.code_pos + 1 ∧
      s'.bytes = s.bytes ++ [inst.opcode * 16 + 2 * (sc.mod1 % 8).toNat + 1] ∧
      (inst.opcode * 16 + 2 * (sc.mod1 % 8).toNat + 1) / 16 = inst.opcode ∧
      (inst.opcode * 16 + 2 * (sc.mod1 % 8).toNat + 1) % 16 = 2 * (sc.mod1 % 8).toNat + 1 ∧
      (inst.opcode * 16 + 2 * (sc.mod1 % 8).toNat + 1) % 2 = 1 ∧
      (inst.mnemonic = "SRC" →
        sc.num_mods = 2 ∧
        s'.bytes = s.bytes ++
          [(Int.lor (Int.lor 0x20 ((Int.land sc.mod1 0x07) <<< (1 : Int))) 0x01).toNat]) := by
  have hl := emod_toNat_lt sc.mod1 8 (by norm_num)
  simp only [Nat.cast_ofNat] at hl
  rw [assemble_line_exact inst hin sc hm hn s, emit_word0_pair1 inst hf]
  rcases regpair1_entries inst hin hf with rfl | rfl
  · rw [one_byte _ rfl _ _ _ hroom]
    refine ⟨_, rfl, rfl, ?_, ?_, ?_, ?_, ?_⟩
    · exact bytes_push _ _ _
    · dsimp only
      omega
    · dsimp only
      omega
    · dsimp only
      omega
    · intro _
      refine ⟨?_, ?_⟩
      · have : sc.num_mods - 1 = 1 := hn
        omega
      · have e := lor_pair1 2 sc.mod1
        rw [show ((2 : Nat) : Int) <<< (4 : Int) = 0x20 from by decide] at e
        rw [e]
        exact bytes_push _ _ _
  · rw [one_byte _ rfl _ _ _ hroom]
    refine ⟨_, rfl, rfl, ?_, ?_, ?_, ?_, ?_⟩
    · exact bytes_push _ _ _
    · dsimp only
      omega
    · dsimp only
      omega
    · dsimp only
      omega
    · intro h
      exact absurd h (by decide)

/-- C4 at `SRC 3` from the empty buffer: the output is `[0x27]`. -/
theorem C4_regpair1_layout_witness :
    ∃ s', assemble_line ⟨2, "SRC", 0x3, 0⟩ State.init = Except.ok s' ∧
      s'.code_pos = 1 ∧ s'.bytes = [0x27] := by
  obtain ⟨s', h, hp, hb, _⟩ :=
    C4_regpair1_layout ⟨"SRC", 0x02, 1, .OPCODE_REGPAIR_1, .NONE⟩ (by decide) rfl
      ⟨2, "SRC", 0x3, 0⟩ rfl (by decide) State.init (by decide)
  exact ⟨s', h, hp, hb⟩

/-- C5. For a table entry whose first-word format is `OPCODE_COND`,
`OPCODE_ADDR`, `OPCODE_DATA` or `OPCODE_REGISTER`, a line with its mnemonic and
required operand count, assembled with room for a byte, stores as its first byte
`opcode * 16 + (mod1 mod 16)`, whatever `mod1` is: the high nibble is the
entry's opcode field, the low nibble the low four bits of `mod1`.  The byte is
in place when the call ends, also when a second byte then finds the buffer
full. -/
theorem C5_nibble_layout (inst : Instruction) (hin : inst ∈ instructions)
    (hf : inst.word0_format = WordFormat.OPCODE_COND ∨
      inst.word0_format = WordFormat.OPCODE_ADDR ∨
      inst.word0_format = WordFormat.OPCODE_DATA ∨
      inst.word0_format = WordFormat.OPCODE_REGISTER)
    (sc : Scanned) (hm : sc.mnemonic = inst.mnemonic)
    (hn : sc.num_mods - 1 = inst.num_modifiers)
    (s : State) (hroom : s.code_pos < MAX_CODE) :
    s.code_pos < (globals_after (assemble_line sc s)).code_pos ∧
    (globals_after (assemble_line sc s)).code s.code_pos
      = inst.opcode * 16 + (sc.mod1 % 16).toNat ∧
    (globals_after (assemble_line sc s)).code s.code_pos / 16 = inst.opcode ∧
    (globals_after (assemble_line sc s)).code s.code_pos % 16 = (sc.mod1 % 16).toNat ∧
    (globals_after (assemble_line sc s)).code s.code_pos
      = (Int.lor ((inst.opcode : Int) <<< (4 : Int)) (Int.land sc.mod1 0x0F)).toNat := by
  have hl := emod_toNat_lt sc.mod1 16 (by norm_num)
  simp only [Nat.cast_ofNat] at hl
  have ho := nibble_entries inst hin hf
  rw [assemble_line_exact inst hin sc hm hn s, emit_word0_nibble inst hf, lor_nibble]
  obtain ⟨h1, h2⟩ := first_byte_kept inst (inst.opcode % 16 * 16 + (sc.mod1 % 16).toNat)
    sc.mod2 s hroom
  rw [h1]
  refine ⟨h2, ?_, ?_, ?_, ?_⟩
  · rw [Nat.mod_eq_of_lt ho]
  · omega
  · omega
  · rw [Nat.mod_eq_of_lt ho]
    rfl

/-- C5 at `LDM F` and at `ISZ 1A 7` from the empty buffer (first bytes `0xDF`
and, `0x1A` keeping only its low nibble, `0x7A`). -/
theorem C5_nibble_layout_witness :
    (globals_after (assemble_line ⟨2, "LDM", 0xF, 0⟩ State.init)).code 0 = 0xDF ∧
    (globals_after (assemble_line ⟨3, "ISZ", 0x1A, 0x7⟩ State.init)).code 0 = 0x7A := by
  refine ⟨?_, ?_⟩
  · exact (C5_nibble_layout ⟨"LDM", 0x0D, 1, .OPCODE_DATA, .NONE⟩ (by decide)
      (Or.inr (Or.inr (Or.inl rfl))) ⟨2, "LDM", 0xF, 0⟩ rfl (by decide) State.init
      (by decide)).2.1
  · exact (C5_nibble_layout ⟨"ISZ", 0x07, 2, .OPCODE_REGISTER, .ADDRESS⟩ (by decide)
      (Or.inr (Or.inr (Or.inr rfl))) ⟨3, "ISZ", 0x1A, 0x7⟩ rfl (by decide) State.init
      (by decide)).2.1

/-- C6. For a table entry whose first-word format is `OPCODE` (`CLB` to `DCL`,
`WRM` to `RD3`), the line made of its mnemonic alone, assembled with room for a
byte, is accepted and appends exactly one byte: the entry's opcode field,
all eight bits of it. -/
theorem C6_opcode_verbatim (inst : Instruction) (hin : inst ∈ instructions)
    (hf : inst.word0_format = WordFormat.OPCODE)
    (sc : Scanned) (hm : sc.mnemonic = inst.mnemonic) (hn : sc.num_mods = 1)
    (s : State) (hroom : s.code_pos < MAX_CODE) :
    ∃ s', assemble_line sc s = Except.ok s' ∧
      s'.code_pos = s.code_pos + 1 ∧
      s'.bytes = s.bytes ++ [inst.opcode] ∧
      inst.opcode < 256 ∧
      inst.mnemonic ∈
        ["CLB", "CLC", "IAC", "CMC", "CMA", "RAL", "RAR", "TCC", "DAC", "TCS",
         "STC", "DAA", "KBP", "DCL", "WRM", "WMP", "WRR", "WPM", "WR0", "WR1",
         "WR2", "WR3", "SBM", "RDM", "RDR", "ADM", "RD0", "RD1", "RD2", "RD3"] := by
  obtain ⟨h0, h1, h2, h3⟩ := opcode_entries inst hin hf
  rw [assemble_line_exact inst hin sc hm (by rw [hn, h0]; rfl) s, emit_word0_opcode inst hf,
    one_byte inst h1 _ _ _ hroom]
  exact ⟨_, rfl, rfl, bytes_push _ _ _, h2, h3⟩

/-- C6 at `WRM` after one `CLB` byte: the buffer becomes `[0xF0, 0xE0]`. -/
theorem C6_opcode_verbatim_witness :
    ∃ s', assemble_line ⟨1, "WRM", 0, 0⟩ ⟨Function.update (fun _ => 0) 0 0xF0, 1⟩
        = Except.ok s' ∧
      s'.code_pos = 2 ∧ s'.bytes = [0xF0, 0xE0] := by
  obtain ⟨s', h, hp, hb, _⟩ :=
    C6_opcode_verbatim ⟨"WRM", 0xE0, 0, .OPCODE, .NONE⟩ (by decide) rfl
      ⟨1, "WRM", 0, 0⟩ rfl rfl ⟨Function.update (fun _ => 0) 0 0xF0, 1⟩ (by decide)
  exact ⟨s', h, hp, hb⟩

/-- C7 (the code departs from the claim). `NOP` is a table mnemonic that
requires no operand, and the line `NOP` is accepted, yet it appends zero bytes:
position and buffer are as before.  It is the only such entry: every other
table mnemonic, with its required operand count and room for two bytes, is
accepted and appends exactly one or exactly two bytes. -/
theorem C7_nop_appends_zero_bytes :
    (∃ inst ∈ instructions, inst.mnemonic = "NOP" ∧ inst.num_modifiers = 0 ∧
      ∀ (m1 m2 : Int) (s : State),
        ∃ s', assemble_line ⟨inst.num_modifiers + 1, inst.mnemonic, m1, m2⟩ s = Except.ok s' ∧
          s'.code_pos = s.code_pos ∧ s'.bytes = s.bytes ++ []) ∧
    (∀ inst ∈ instructions, inst.mnemonic ≠ "NOP" →
      ∀ (sc : Scanned) (s : State), sc.mnemonic = inst.mnemonic →
        sc.num_mods - 1 = inst.num_modifiers → s.code_pos + 2 ≤ MAX_CODE →
        ∃ s' bs, assemble_line sc s = Except.ok s' ∧
          s'.code_pos = s.code_pos + bs.length ∧ s'.bytes = s.bytes ++ bs ∧
          (bs.length = 1 ∨ bs.length = 2)) := by
  refine ⟨⟨⟨"NOP", 0x00, 0, .NONE, .NONE⟩, by decide, rfl, rfl, fun m1 m2 s => ?_⟩, ?_⟩
  · refine ⟨s, ?_, rfl, (List.append_nil _).symm⟩
    rw [assemble_line_exact ⟨"NOP", 0x00, 0, .NONE, .NONE⟩ (by decide) _ rfl
      (by show (0 : Int) + 1 - 1 = 0; decide) s]
    rfl
  · intro inst hin hne sc s hm hn hroom
    obtain ⟨hw0, hw1⟩ := entries_emit inst hin hne
    obtain ⟨b, hb⟩ := emit_word0_emits inst hw0 sc.mod1
    rw [assemble_line_exact inst hin sc hm hn s, hb]
    rcases hw1 with h | h
    · rw [one_byte inst h _ _ _ (by omega)]
      exact ⟨_, [b], rfl, rfl, bytes_push _ _ _, Or.inl rfl⟩
    · rw [two_bytes inst h _ _ _ hroom]
      exact ⟨_, [b, to_uchar sc.mod2], rfl, rfl, bytes_push2 _ _ _ _, Or.inr rfl⟩

/-- C8. For a line whose mnemonic is that of a table entry: with more parsed
operands than the entry requires it stops with "Too many modifiers", with fewer
it stops with "Too few modifiers", and in both cases the globals (buffer and
position) at the stop are those at the call. -/
theorem C8_arity_errors (inst : Instruction) (hin : inst ∈ instructions)
    (sc : Scanned) (hm : sc.mnemonic = inst.mnemonic) (s : State) :
    (sc.num_mods - 1 > inst.num_modifiers →
      assemble_line sc s = Except.error ⟨"Too many modifiers", s⟩) ∧
    (sc.num_mods - 1 < inst.num_modifiers →
      assemble_line sc s = Except.error ⟨"Too few modifiers", s⟩) := by
  rw [assemble_line_entry inst hin sc hm s]
  refine ⟨fun h => ?_, fun h => ?_⟩
  · rw [if_pos h]
    rfl
  · rw [if_neg (by omega), if_pos h]
    rfl

/-- C8 at `NOP 1` (too many) and at `JUN` alone (too few), from the empty
buffer. -/
theorem C8_arity_errors_witness :
    assemble_line ⟨2, "NOP", 0x1, 0⟩ State.init
      = Except.error ⟨"Too many modifiers", State.init⟩ ∧
    assemble_line ⟨1, "JUN", 0, 0⟩ State.init
      = Except.error ⟨"Too few modifiers", State.init⟩ :=
  ⟨(C8_arity_errors ⟨"NOP", 0x00, 0, .NONE, .NONE⟩ (by decide) ⟨2, "NOP", 0x1, 0⟩ rfl
      State.init).1 (by decide),
   (C8_arity_errors ⟨"JUN", 0x04, 1, .OPCODE_ADDR, .ADDRESS⟩ (by decide) ⟨1, "JUN", 0, 0⟩ rfl
      State.init).2 (by decide)⟩

/-- C9. `find_instruction` returns `-1` exactly when no table entry has a
mnemonic equal to the token as a whole string, case included (`XYZ`, `nop`,
`NO`, `NOPX` are not found); otherwise it returns the index of an entry whose
mnemonic is the token.  For a token that is not found, `assemble_line` stops
with "Invalid mnemonic" and the globals untouched, whatever the operand count
and operands. -/
theorem C9_find_instruction (token : String) :
    (find_instruction token = -1 ↔ ¬ ∃ inst ∈ instructions, inst.mnemonic = token) ∧
    (find_instruction token ≠ -1 →
      ∃ (i : Nat) (inst : Instruction), find_instruction token = (i : Int) ∧
        instructions[i]? = some inst ∧ inst.mnemonic = token) ∧
    (find_instruction token = -1 →
      ∀ (num_mods mod1 mod2 : Int) (s : State),
        assemble_line ⟨num_mods, token, mod1, mod2⟩ s
          = Except.error ⟨"Invalid mnemonic", s⟩) ∧
    find_instruction "XYZ" = -1 ∧ find_instruction "nop" = -1 ∧
    find_instruction "NO" = -1 ∧ find_instruction "NOPX" = -1 ∧
    find_instruction "NOP" = 0 ∧ find_instruction "RD3" = 45 := by
  refine ⟨?_, ?_, ?_, by decide, by decide, by decide, by decide, by decide, by decide⟩
  · unfold find_instruction
    rw [find_from_not_found]
    constructor
    · rintro h ⟨inst, hin, he⟩
      exact h inst hin he
    · intro h inst hin he
      exact h ⟨inst, hin, he⟩
  · intro h
    obtain ⟨j, hj, inst, hget, hinst⟩ := find_from_found token instructions 0 h
    refine ⟨j, inst, ?_, hget, hinst⟩
    unfold find_instruction
    rw [hj]
    congr 1
    omega
  · intro h num_mods mod1 mod2 s
    unfold assemble_line
    simp only [h, if_true]
    rfl

/-- C10. `emit_byte` stops with "Code memory overflow" exactly when
`code_pos >= 4096`, leaving the globals as they were; otherwise it stores the
byte at index `code_pos` and increments `code_pos`.  Hence, for a line that is
accepted from the empty buffer and encodes to `k` bytes there, assembled when
the buffer holds `p <= 4096` bytes: it stops with the capacity error exactly
when `p + k > 4096`, it is accepted when `p + k <= 4096` (so also when it fills
the buffer exactly), and when `k = 0` it returns from any state. -/
theorem C10_capacity (byte : Nat) (s : State) :
    MAX_CODE = 4096 ∧
    (emit_byte byte s = Except.error ⟨"Code memory overflow", s⟩ ↔ s.code_pos ≥ 4096) ∧
    ((∃ h, emit_byte byte s = Except.error h) ↔ s.code_pos ≥ 4096) ∧
    (¬ s.code_pos ≥ 4096 →
      emit_byte byte s
        = Except.ok ⟨Function.update s.code s.code_pos byte, s.code_pos + 1⟩) ∧
    (∀ (sc : Scanned) (s0 : State), assemble_line sc State.init = Except.ok s0 →
      s.code_pos ≤ 4096 →
      ((∃ g, assemble_line sc s = Except.error ⟨"Code memory overflow", g⟩)
          ↔ s.code_pos + s0.code_pos > 4096) ∧
      (s.code_pos + s0.code_pos ≤ 4096 →
        ∃ s', assemble_line sc s = Except.ok s' ∧
          s'.code_pos = s.code_pos + s0.code_pos) ∧
      (s0.code_pos = 0 → ∀ t, assemble_line sc t = Except.ok t)) := by
  refine ⟨rfl, ?_, ?_, ?_, ?_⟩
  · constructor
    · intro h
      by_contra hlt
      rw [emit_byte_ok byte s (by show s.code_pos < 4096; omega)] at h
      cases h
    · intro h
      exact emit_byte_full byte s h
  · constructor
    · rintro ⟨h, hh⟩
      by_contra hlt
      rw [emit_byte_ok byte s (by show s.code_pos < 4096; omega)] at hh
      cases hh
    · intro h
      exact ⟨_, emit_byte_full byte s h⟩
  · intro h
    exact emit_byte_ok byte s (by show s.code_pos < 4096; omega)
  · intro sc s0 hvalid hs
    rcases assemble_line_shape sc with ⟨msg, _, hmsg⟩ | ⟨inst, hinst⟩
    · rw [hmsg] at hvalid
      cases hvalid
    · rw [hinst] at hvalid
      rw [hinst]
      rcases emit_word0_shape inst sc.mod1 with h0 | ⟨b0, h0⟩ <;>
        rcases emit_word1_shape inst sc.mod2 with h1 | ⟨b1, h1⟩
      · have hall : ∀ t, assemble_line sc t = Except.ok t := by
          intro t
          rw [hinst, h0]
          exact h1 t
        rw [h0] at hvalid ⊢
        have e : s0 = State.init := by
          have := (h1 State.init).symm.trans hvalid
          cases this
          rfl
        subst e
        refine ⟨⟨?_, ?_⟩, fun _ => ⟨s, h1 s, rfl⟩, fun _ => hall⟩
        · rintro ⟨g, hg⟩
          have := (h1 s).symm.trans hg
          cases this
        · intro h
          have : State.init.code_pos = 0 := rfl
          omega
      · rw [h0] at hvalid ⊢
        have hv : emit_byte b1 State.init = Except.ok s0 := (h1 State.init).symm.trans hvalid
        rw [emit_byte_ok b1 State.init (by decide)] at hv
        cases hv
        have hk := capacity_one b1 s
        rw [← h1 s] at hk
        refine ⟨hk.1, hk.2, fun h => ?_⟩
        exact absurd h (Nat.succ_ne_zero _)
      · rw [h0] at hvalid ⊢
        rw [show emit_word1 inst sc.mod2 = fun t => Except.ok t from funext h1,
          bind_ok_right] at hvalid ⊢
        rw [emit_byte_ok b0 State.init (by decide)] at hvalid
        cases hvalid
        have hk := capacity_one b0 s
        refine ⟨hk.1, hk.2, fun h => ?_⟩
        exact absurd h (Nat.succ_ne_zero _)
      · rw [h0] at hvalid ⊢
        rw [show emit_word1 inst sc.mod2 = emit_byte b1 from funext h1] at hvalid ⊢
        rw [emit_byte_ok b0 State.init (by decide)] at hvalid
        have hv : emit_byte b1 ⟨Function.update State.init.code State.init.code_pos b0,
            State.init.code_pos + 1⟩ = Except.ok s0 := hvalid
        rw [emit_byte_ok b1 _ (by show (0 : Nat) + 1 < 4096; decide)] at hv
        cases hv
        have hk := capacity_two b0 b1 s
        refine ⟨hk.1, hk.2, fun h => ?_⟩
        exact absurd h (Nat.succ_ne_zero _)

/-- C10 at the last free cell and at a full buffer: with 4095 bytes held the
one-byte line `CLB` is accepted and fills the buffer, the two-byte line
`FIM 2 5A` stops on its second byte; with 4096 bytes held `CLB` stops and
`NOP`, which emits nothing, returns. -/
theorem C10_capacity_witness :
    (∃ s', assemble_line ⟨1, "CLB", 0, 0⟩ ⟨fun _ => 0, 4095⟩ = Except.ok s' ∧
      s'.code_pos = 4095 + 1) ∧
    (∃ g, assemble_line ⟨3, "FIM", 0x2, 0x5A⟩ ⟨fun _ => 0, 4095⟩
      = Except.error ⟨"Code memory overflow", g⟩) ∧
    (∃ g, assemble_line ⟨1, "CLB", 0, 0⟩ ⟨fun _ => 0, 4096⟩
      = Except.error ⟨"Code memory overflow", g⟩) ∧
    assemble_line ⟨1, "NOP", 0, 0⟩ ⟨fun _ => 0, 4096⟩ = Except.ok ⟨fun _ => 0, 4096⟩ := by
  have hclb : assemble_line ⟨1, "CLB", 0, 0⟩ State.init
      = Except.ok ⟨Function.update State.init.code 0 0xF0, 1⟩ := rfl
  have hfim : assemble_line ⟨3, "FIM", 0x2, 0x5A⟩ State.init
      = Except.ok ⟨Function.update (Function.update State.init.code 0 0x24) 1 0x5A, 2⟩ :=
    rfl
  have hnop : assemble_line ⟨1, "NOP", 0, 0⟩ State.init = Except.ok State.init := rfl
  refine ⟨?_, ?_, ?_, ?_⟩
  · exact ((C10_capacity 0 ⟨fun _ => 0, 4095⟩).2.2.2.2 _ _ hclb (by decide)).2.1 (by decide)
  · exact ((C10_capacity 0 ⟨fun _ => 0, 4095⟩).2.2.2.2 _ _ hfim (by decide)).1.2 (by decide)
  · exact ((C10_capacity 0 ⟨fun _ => 0, 4096⟩).2.2.2.2 _ _ hclb (by decide)).1.2 (by decide)
  · exact ((C10_capacity 0 ⟨fun _ => 0, 4096⟩).2.2.2.2 _ _ hnop (by decide)).2.2 rfl _

/-! ## Table invariants -/

set_option maxRecDepth 100000 in
/-- No mnemonic occurs twice in the table. -/
theorem mnemonics_nodup : (instructions.map Instruction.mnemonic).Nodup := by
  decide

/-- Two positions of the table that hold the same mnemonic are one position. -/
theorem mnemonic_index_unique (i j : Nat) (a b : Instruction)
    (ha : instructions[i]? = some a) (hb : instructions[j]? = some b)
    (hab : a.mnemonic = b.mnemonic) : i = j := by
  have hi : i < (instructions.map Instruction.mnemonic).length := by
    rw [List.length_map]
    exact (List.getElem?_eq_some.mp ha).1
  apply List.getElem?_inj hi mnemonics_nodup
  rw [List.getElem?_map, List.getElem?_map, ha, hb]
  simp [hab]

/-- C11 (the code departs from the claim). The rows `JUN` and `JMS` require one
operand while both of their format tags (`OPCODE_ADDR`, `ADDRESS`) consume one;
in every other row the required count equals the number of operand-consuming
tags. -/
theorem C11_operand_count_mismatch :
    (∃ inst ∈ instructions, inst.mnemonic = "JUN" ∧
      inst.num_modifiers = 1 ∧ operand_tags inst = 2) ∧
    (∃ inst ∈ instructions, inst.mnemonic = "JMS" ∧
      inst.num_modifiers = 1 ∧ operand_tags inst = 2) ∧
    (∀ inst ∈ instructions, inst.mnemonic ≠ "JUN" → inst.mnemonic ≠ "JMS" →
      inst.num_modifiers = operand_tags inst) := by
  refine ⟨⟨⟨"JUN", 0x04, 1, .OPCODE_ADDR, .ADDRESS⟩, by decide, rfl, rfl, by decide⟩,
    ⟨⟨"JMS", 0x05, 1, .OPCODE_ADDR, .ADDRESS⟩, by decide, rfl, rfl, by decide⟩, ?_⟩
  decide

/-- C12. No two table entries have the same mnemonic, so a token that
`find_instruction` finds has exactly one table position whose mnemonic equals
it, and that position is the index returned. -/
theorem C12_unique_mnemonic (token : String) (h : find_instruction token ≠ -1) :
    (instructions.map Instruction.mnemonic).Nodup ∧
    (∀ (i j : Nat) (a b : Instruction), instructions[i]? = some a →
      instructions[j]? = some b → a.mnemonic = b.mnemonic → i = j) ∧
    ∃ (i : Nat) (inst : Instruction), find_instruction token = (i : Int) ∧
      instructions[i]? = some inst ∧ inst.mnemonic = token ∧
      ∀ (j : Nat) (other : Instruction), instructions[j]? = some other →
        other.mnemonic = token → j = i := by
  refine ⟨mnemonics_nodup, mnemonic_index_unique, ?_⟩
  obtain ⟨j, hj, inst, hget, hinst⟩ := find_from_found token instructions 0 h
  refine ⟨j, inst, ?_, hget, hinst, fun k other hk hother => ?_⟩
  · unfold find_instruction
    rw [hj]
    congr 1
    omega
  · exact mnemonic_index_unique k j other inst hk hget (hother.trans hinst.symm)

/-- C12 at the token `JUN`: index 6, and any position holding `JUN` is 6. -/
theorem C12_unique_mnemonic_witness :
    find_instruction "JUN" = 6 ∧
    ∀ (j : Nat) (other : Instruction), instructions[j]? = some other →
      other.mnemonic = "JUN" → j = 6 := by
  obtain ⟨_, _, i, inst, hi, _, _, huniq⟩ := C12_unique_mnemonic "JUN" (by decide)
  have h6 : find_instruction "JUN" = 6 := by decide
  have e : i = 6 := by
    rw [h6] at hi
    omega
  subst e
  exact ⟨h6, huniq⟩

/-! ## Runs of `emit_byte` and the normal form of a call -/

theorem emit_bytes_cons_ok (b : Nat) (bs : List Nat) (s : State) (h : s.code_pos < MAX_CODE) :
    emit_bytes (b :: bs) s
      = emit_bytes bs ⟨Function.update s.code s.code_pos b, s.code_pos + 1⟩ := by
  show (emit_byte b s >>= emit_bytes bs) = _
  rw [emit_byte_ok b s h]
  rfl

theorem emit_bytes_cons_full (b : Nat) (bs : List Nat) (s : State)
    (h : MAX_CODE ≤ s.code_pos) :
    emit_bytes (b :: bs) s = Except.error ⟨"Code memory overflow", s⟩ := by
  show (emit_byte b s >>= emit_bytes bs) = _
  rw [emit_byte_full b s h]
  rfl

/-- A run that returns has appended its bytes, in order. -/
theorem emit_bytes_ok_bytes (bs : List Nat) (s s' : State)
    (h : emit_bytes bs s = Except.ok s') :
    s'.code_pos = s.code_pos + bs.length ∧ s'.bytes = s.bytes ++ bs := by
  induction bs generalizing s with
  | nil =>
    cases h
    exact ⟨rfl, (List.append_nil _).symm⟩
  | cons b bs ih =>
    by_cases hp : s.code_pos < MAX_CODE
    · rw [emit_bytes_cons_ok b bs s hp] at h
      obtain ⟨h1, h2⟩ := ih _ h
      refine ⟨?_, ?_⟩
      · rw [h1, List.length_cons]
        show s.code_pos + 1 + bs.length = _
        omega
      · rw [h2, bytes_push, List.append_assoc]
        rfl
    · rw [emit_bytes_cons_full b bs s (by omega)] at h
      cases h

/-- A run with room returns. -/
theorem emit_bytes_room (bs : List Nat) (s : State)
    (h : s.code_pos + bs.length ≤ MAX_CODE) : ∃ s', emit_bytes bs s = Except.ok s' := by
  induction bs generalizing s with
  | nil => exact ⟨s, rfl⟩
  | cons b bs ih =>
    rw [List.length_cons] at h
    rw [emit_bytes_cons_ok b bs s (by omega)]
    exact ih _ (by show s.code_pos + 1 + bs.length ≤ MAX_CODE; omega)

/-- Where the globals stand when a run ends, returned or stopped: cells below
the old position and cells from `MAX_CODE` on are untouched, the position has
not decreased, has grown by at most the number of bytes, and has not passed
`MAX_CODE`. -/
theorem emit_bytes_after (bs : List Nat) (s : State) :
    (∀ i, i < s.code_pos ∨ MAX_CODE ≤ i →
      (globals_after (emit_bytes bs s)).code i = s.code i) ∧
    s.code_pos ≤ (globals_after (emit_bytes bs s)).code_pos ∧
    (globals_after (emit_bytes bs s)).code_pos ≤ s.code_pos + bs.length ∧
    (s.code_pos ≤ MAX_CODE → (globals_after (emit_bytes bs s)).code_pos ≤ MAX_CODE) := by
  induction bs generalizing s with
  | nil => exact ⟨fun _ _ => rfl, Nat.le_refl _, Nat.le_refl _, fun h => h⟩
  | cons b bs ih =>
    by_cases hp : s.code_pos < MAX_CODE
    · rw [emit_bytes_cons_ok b bs s hp]
      obtain ⟨h1, h2, h3, h4⟩ := ih ⟨Function.update s.code s.code_pos b, s.code_pos + 1⟩
      refine ⟨fun i hi => ?_, ?_, ?_, fun _ => ?_⟩
      · rw [h1 i (by show i < s.code_pos + 1 ∨ MAX_CODE ≤ i; omega)]
        exact Function.update_noteq (by omega) _ _
      · have : s.code_pos + 1 ≤ _ := h2
        omega
      · have : _ ≤ s.code_pos + 1 + bs.length := h3
        rw [List.length_cons]
        omega
      · exact h4 (by show s.code_pos + 1 ≤ MAX_CODE; omega)
    · rw [emit_bytes_cons_full b bs s (by omega)]
      exact ⟨fun _ _ => rfl, Nat.le_refl _, Nat.le_add_right _ _, fun h => h⟩

theorem emit_bytes_one (b : Nat) : emit_bytes [b] = emit_byte b := by
  funext s
  show (emit_byte b s >>= fun t => Except.ok t) = _
  exact bind_ok_right _

theorem emit_bytes_two (b0 b1 : Nat) (s : State) :
    emit_bytes [b0, b1] s = (emit_byte b0 s >>= emit_byte b1) := by
  show (emit_byte b0 s >>= emit_bytes [b1]) = _
  rw [emit_bytes_one]

/-- A call of `assemble_line` either stops in its header with the globals
untouched, or is a run of at most two `emit_byte` calls whose bytes depend on
the scan alone. -/
theorem assemble_line_normal (sc : Scanned) :
    (∃ msg, msg ≠ "Code memory overflow" ∧
      ∀ t, assemble_line sc t = Except.error ⟨msg, t⟩) ∨
    (∃ bs : List Nat, bs.length ≤ 2 ∧ ∀ t, assemble_line sc t = emit_bytes bs t) := by
  rcases assemble_line_shape sc with h | ⟨inst, hinst⟩
  · exact Or.inl h
  · right
    rcases emit_word0_shape inst sc.mod1 with h0 | ⟨b0, h0⟩ <;>
      rcases emit_word1_shape inst sc.mod2 with h1 | ⟨b1, h1⟩
    · refine ⟨[], by decide, fun t => ?_⟩
      rw [hinst, h0]
      exact h1 t
    · refine ⟨[b1], by simp, fun t => ?_⟩
      rw [hinst, h0, emit_bytes_one]
      exact h1 t
    · refine ⟨[b0], by simp, fun t => ?_⟩
      rw [hinst, h0, emit_bytes_one,
        show emit_word1 inst sc.mod2 = fun t => Except.ok t from funext h1, bind_ok_right]
    · refine ⟨[b0, b1], by simp, fun t => ?_⟩
      rw [hinst, h0, emit_bytes_two,
        show emit_word1 inst sc.mod2 = emit_byte b1 from funext h1]

/-- The bytes of a line on its own are the bytes of its run. -/
theorem line_bytes_of_run (sc : Scanned) (bs : List Nat) (hlen : bs.length ≤ 2)
    (h : ∀ t, assemble_line sc t = emit_bytes bs t) :
    line_bytes sc = bs ∧ ∃ s1, assemble_line sc State.init = Except.ok s1 := by
  obtain ⟨s1, hs1⟩ := emit_bytes_room bs State.init
    (by show 0 + bs.length ≤ 4096; omega)
  obtain ⟨_, hb⟩ := emit_bytes_ok_bytes bs State.init s1 hs1
  unfold line_bytes
  rw [h, hs1]
  exact ⟨hb, s1, rfl⟩

/-- Where the globals stand when a call of `assemble_line` ends. -/
theorem assemble_line_after (sc : Scanned) (s : State) :
    (∀ i, i < s.code_pos ∨ MAX_CODE ≤ i →
      (globals_after (assemble_line sc s)).code i = s.code i) ∧
    s.code_pos ≤ (globals_after (assemble_line sc s)).code_pos ∧
    (globals_after (assemble_line sc s)).code_pos ≤ s.code_pos + 2 ∧
    (s.code_pos ≤ MAX_CODE → (globals_after (assemble_line sc s)).code_pos ≤ MAX_CODE) := by
  rcases assemble_line_normal sc with ⟨msg, _, hmsg⟩ | ⟨bs, hlen, hbs⟩
  · rw [hmsg]
    exact ⟨fun _ _ => rfl, Nat.le_refl _, Nat.le_add_right _ _, fun h => h⟩
  · rw [hbs]
    obtain ⟨h1, h2, h3, h4⟩ := emit_bytes_after bs s
    exact ⟨h1, h2, by omega, h4⟩

/-! ## Dependence on the operands -/

/-- An accepted line names a table entry and has its required operand count. -/
theorem assemble_line_found (sc : Scanned) (s s' : State)
    (h : assemble_line sc s = Except.ok s') :
    ∃ inst ∈ instructions, sc.mnemonic = inst.mnemonic ∧
      sc.num_mods - 1 = inst.num_modifiers := by
  by_cases hf : find_instruction sc.mnemonic = -1
  · unfold assemble_line at h
    simp only [hf, if_true] at h
    cases h
  · obtain ⟨j, _, inst, hget, hinst⟩ := find_from_found sc.mnemonic instructions 0 hf
    have hin : inst ∈ instructions := List.getElem?_mem hget
    refine ⟨inst, hin, hinst.symm, ?_⟩
    rw [assemble_line_entry inst hin sc hinst.symm s] at h
    by_cases h1 : sc.num_mods - 1 > inst.num_modifiers
    · rw [if_pos h1] at h
      cases h
    · rw [if_neg h1] at h
      by_cases h2 : sc.num_mods - 1 < inst.num_modifiers
      · rw [if_pos h2] at h
        cases h
      · omega

/-- The byte of the first switch, for an entry that emits one: its high nibble
is fixed by the entry, an `OPCODE` entry emits its opcode, and bit 0 tells
`OPCODE_REGPAIR_0` from `OPCODE_REGPAIR_1`. -/
theorem first_byte (inst : Instruction)
    (hw : inst.word0_format ≠ WordFormat.NONE ∧ inst.word0_format ≠ WordFormat.ADDRESS ∧
      inst.word0_format ≠ WordFormat.DATA) (m : Int) :
    ∃ b, (∀ t, emit_word0 inst m t = emit_byte b t) ∧
      b / 16 = high_nibble inst ∧
      (inst.word0_format = WordFormat.OPCODE → b = inst.opcode) ∧
      (inst.word0_format = WordFormat.OPCODE_REGPAIR_0 → b % 2 = 0) ∧
      (inst.word0_format = WordFormat.OPCODE_REGPAIR_1 → b % 2 = 1) := by
  obtain ⟨h1, h2, h3⟩ := hw
  have l16 := emod_toNat_lt m 16 (by norm_num)
  have l8 := emod_toNat_lt m 8 (by norm_num)
  have ho : inst.opcode % 16 < 16 := Nat.mod_lt _ (by norm_num)
  simp only [Nat.cast_ofNat] at l16 l8
  unfold high_nibble
  cases hf : inst.word0_format
  case NONE => exact absurd hf h1
  case ADDRESS => exact absurd hf h2
  case DATA => exact absurd hf h3
  case OPCODE =>
    refine ⟨inst.opcode, fun t => emit_word0_opcode inst hf m t, ?_, fun _ => rfl,
      fun h => ?_, fun h => ?_⟩
    · simp
    · cases h
    · cases h
  case OPCODE_COND =>
    refine ⟨_, fun t => emit_word0_nibble inst (Or.inl hf) m t, ?_, fun h => ?_,
      fun h => ?_, fun h => ?_⟩
    · simp
      omega
    · cases h
    · cases h
    · cases h
  case OPCODE_ADDR =>
    refine ⟨_, fun t => emit_word0_nibble inst (Or.inr (Or.inl hf)) m t, ?_, fun h => ?_,
      fun h => ?_, fun h => ?_⟩
    · simp
      omega
    · cases h
    · cases h
    · cases h
  case OPCODE_DATA =>
    refine ⟨_, fun t => emit_word0_nibble inst (Or.inr (Or.inr (Or.inl hf))) m t, ?_,
      fun h => ?_, fun h => ?_, fun h => ?_⟩
    · simp
      omega
    · cases h
    · cases h
    · cases h
  case OPCODE_REGISTER =>
    refine ⟨_, fun t => emit_word0_nibble inst (Or.inr (Or.inr (Or.inr hf))) m t, ?_,
      fun h => ?_, fun h => ?_, fun h => ?_⟩
    · simp
      omega
    · cases h
    · cases h
    · cases h
  case OPCODE_REGPAIR_0 =>
    refine ⟨_, fun t => emit_word0_pair0 inst hf m t, ?_, fun h => ?_, fun _ => ?_,
      fun h => ?_⟩
    · simp
      omega
    · cases h
    · omega
    · cases h
  case OPCODE_REGPAIR_1 =>
    refine ⟨_, fun t => emit_word0_pair1 inst hf m t, ?_, fun h => ?_, fun h => ?_,
      fun _ => ?_⟩
    · simp
      omega
    · cases h
    · cases h
    · omega

/-- A sequence of calls that returns has appended, in order, the bytes that each
line gives on its own, and each line is accepted on its own. -/
theorem assemble_lines_bytes (lines : List Scanned) (s s' : State)
    (h : assemble_lines lines s = Except.ok s') :
    s'.bytes = s.bytes ++ (lines.map line_bytes).flatten ∧
    s'.code_pos = s.code_pos + (lines.map line_bytes).flatten.length ∧
    ∀ sc ∈ lines, ∃ s1, assemble_line sc State.init = Except.ok s1 := by
  induction lines generalizing s with
  | nil =>
    cases h
    exact ⟨(List.append_nil _).symm, rfl, fun _ hsc => absurd hsc (List.not_mem_nil _)⟩
  | cons sc rest ih =>
    have h' : (assemble_line sc s >>= assemble_lines rest) = Except.ok s' := h
    rcases assemble_line_normal sc with ⟨msg, _, hmsg⟩ | ⟨bs, hlen, hbs⟩
    · rw [hmsg] at h'
      cases h'
    · obtain ⟨hlb, halone⟩ := line_bytes_of_run sc bs hlen hbs
      rw [hbs] at h'
      cases hrun : emit_bytes bs s with
      | error e =>
        rw [hrun] at h'
        cases h'
      | ok s1 =>
        rw [hrun] at h'
        obtain ⟨hp, hb⟩ := emit_bytes_ok_bytes bs s s1 hrun
        obtain ⟨ih1, ih2, ih3⟩ := ih s1 h'
        rw [List.map_cons, List.flatten_cons, hlb]
        refine ⟨?_, ?_, ?_⟩
        · rw [ih1, hb, List.append_assoc]
        · rw [ih2, hp, List.length_append]
          omega
        · intro x hx
          rcases List.mem_cons.mp hx with rfl | hx
          · exact halone
          · exact ih3 x hx

/-- Where the globals stand when a sequence of calls has ended, returned or
stopped: the position has not passed `MAX_CODE` and the cells from `MAX_CODE`
on are untouched. -/
theorem assemble_lines_after (lines : List Scanned) (s : State)
    (hs : s.code_pos ≤ MAX_CODE) :
    (globals_after (assemble_lines lines s)).code_pos ≤ MAX_CODE ∧
    ∀ i, MAX_CODE ≤ i → (globals_after (assemble_lines lines s)).code i = s.code i := by
  induction lines generalizing s with
  | nil => exact ⟨hs, fun _ _ => rfl⟩
  | cons sc rest ih =>
    obtain ⟨h1, _, _, h4⟩ := assemble_line_after sc s
    show (globals_after (assemble_line sc s >>= assemble_lines rest)).code_pos ≤ MAX_CODE ∧
      ∀ i, MAX_CODE ≤ i →
        (globals_after (assemble_line sc s >>= assemble_lines rest)).code i = s.code i
    cases hcall : assemble_line sc s with
    | error e =>
      rw [hcall] at h1 h4
      exact ⟨h4 hs, fun i hi => h1 i (Or.inr hi)⟩
    | ok s1 =>
      rw [hcall] at h1 h4
      obtain ⟨ih1, ih2⟩ := ih s1 (h4 hs)
      refine ⟨ih1, fun i hi => ?_⟩
      have e : (globals_after (Except.ok s1 >>= assemble_lines rest)).code i = s1.code i :=
        ih2 i hi
      rw [e]
      exact h1 i (Or.inr hi)

/-- In every row other than `JUN` and `JMS`, the operands that the switches read
are among those the required count covers. -/
theorem parsed_operands_entries :
    ∀ inst ∈ instructions, inst.mnemonic ≠ "JUN" → inst.mnemonic ≠ "JMS" →
      (inst.num_modifiers = 0 ∧
        (inst.word0_format = WordFormat.NONE ∨ inst.word0_format = WordFormat.OPCODE) ∧
        inst.word1_format = WordFormat.NONE) ∨
      (inst.num_modifiers = 1 ∧ inst.word1_format = WordFormat.NONE) ∨
      inst.num_modifiers = 2 := by
  decide

/-- Every table row has a first-word format that is `NONE` or emits a byte. -/
theorem word0_entries :
    ∀ inst ∈ instructions,
      inst.word0_format ≠ WordFormat.ADDRESS ∧ inst.word0_format ≠ WordFormat.DATA := by
  decide

set_option maxRecDepth 100000 in
/-- Two different rows that emit a first byte differ in its high nibble, or are
both `OPCODE` rows with different opcodes, or are a pair-0 and a pair-1 row. -/
theorem first_byte_entries :
    ∀ a ∈ instructions, ∀ b ∈ instructions,
      a.word0_format ≠ WordFormat.NONE → b.word0_format ≠ WordFormat.NONE → a ≠ b →
      high_nibble a ≠ high_nibble b ∨
      (a.word0_format = WordFormat.OPCODE ∧ b.word0_format = WordFormat.OPCODE ∧
        a.opcode ≠ b.opcode) ∨
      (a.word0_format = WordFormat.OPCODE_REGPAIR_0 ∧
        b.word0_format = WordFormat.OPCODE_REGPAIR_1) ∨
      (a.word0_format = WordFormat.OPCODE_REGPAIR_1 ∧
        b.word0_format = WordFormat.OPCODE_REGPAIR_0) := by
  decide

/-- For a row other than `JUN` and `JMS`, a call is fixed by the mnemonic, the
operand count and the operands that were parsed. -/
theorem assemble_line_parsed (inst : Instruction) (hin : inst ∈ instructions)
    (hj : inst.mnemonic ≠ "JUN") (hm : inst.mnemonic ≠ "JMS")
    (sc sc' : Scanned) (s : State)
    (hsc : sc.mnemonic = inst.mnemonic) (hsc' : sc'.mnemonic = inst.mnemonic)
    (hnum : sc'.num_mods = sc.num_mods)
    (h1 : sc.num_mods ≥ 2 → sc'.mod1 = sc.mod1)
    (h2 : sc.num_mods ≥ 3 → sc'.mod2 = sc.mod2) :
    assemble_line sc' s = assemble_line sc s := by
  rw [assemble_line_entry inst hin sc hsc s, assemble_line_entry inst hin sc' hsc' s, hnum]
  by_cases hgt : sc.num_mods - 1 > inst.num_modifiers
  · rw [if_pos hgt, if_pos hgt]
  · rw [if_neg hgt, if_neg hgt]
    by_cases hlt : sc.num_mods - 1 < inst.num_modifiers
    · rw [if_pos hlt, if_pos hlt]
    · rw [if_neg hlt, if_neg hlt]
      rcases parsed_operands_entries inst hin hj hm with ⟨_, hw0, hw1⟩ | ⟨hn, hw1⟩ | hn
      · have e0 : emit_word0 inst sc'.mod1 s = emit_word0 inst sc.mod1 s := by
          unfold emit_word0
          rcases hw0 with h | h <;> rw [h]
        have e1 : emit_word1 inst sc'.mod2 = emit_word1 inst sc.mod2 := by
          funext t
          rw [emit_word1_none inst hw1, emit_word1_none inst hw1]
        rw [e0, e1]
      · have e1 : emit_word1 inst sc'.mod2 = emit_word1 inst sc.mod2 := by
          funext t
          rw [emit_word1_none inst hw1, emit_word1_none inst hw1]
        rw [h1 (by omega), e1]
      · rw [h1 (by omega), h2 (by omega)]

/-- An accepted line that is not a `JUN` or `JMS` line gives the same bytes on
its own whatever its unassigned locals hold. -/
theorem line_bytes_same_one (a b : Scanned) (hab : same_line a b)
    (hj : a.mnemonic ≠ "JUN") (hm : a.mnemonic ≠ "JMS")
    (hacc : ∃ s1, assemble_line a State.init = Except.ok s1) :
    line_bytes a = line_bytes b ∧ ∃ s1, assemble_line b State.init = Except.ok s1 := by
  obtain ⟨s1, hs1⟩ := hacc
  obtain ⟨inst, hin, hmn, hn⟩ := assemble_line_found a State.init s1 hs1
  obtain ⟨hnum, hmne, hm1, hm2⟩ := hab
  have hcount : inst.num_modifiers ≥ 0 := by
    rcases parsed_operands_entries inst hin (by rw [← hmn]; exact hj)
      (by rw [← hmn]; exact hm) with ⟨h, _⟩ | ⟨h, _⟩ | h <;> omega
  have hb : b.mnemonic = inst.mnemonic := (hmne (by omega)).symm.trans hmn
  have e : assemble_line b State.init = assemble_line a State.init :=
    assemble_line_parsed inst hin (by rw [← hmn]; exact hj) (by rw [← hmn]; exact hm)
      a b State.init hmn hb hnum.symm (fun h => (hm1 h).symm) (fun h => (hm2 h).symm)
  refine ⟨?_, s1, e.trans hs1⟩
  unfold line_bytes
  rw [e]

/-- The same, along two sequences that scan the same lines. -/
theorem line_bytes_same (calls alone : List Scanned)
    (hrel : List.Forall₂ same_line calls alone)
    (hrows : ∀ sc ∈ calls, sc.mnemonic ≠ "JUN" ∧ sc.mnemonic ≠ "JMS")
    (hacc : ∀ sc ∈ calls, ∃ s1, assemble_line sc State.init = Except.ok s1) :
    calls.map line_bytes = alone.map line_bytes ∧
    ∀ sc ∈ alone, ∃ s1, assemble_line sc State.init = Except.ok s1 := by
  induction calls generalizing alone with
  | nil =>
    rw [List.forall₂_nil_left_iff] at hrel
    subst hrel
    exact ⟨rfl, fun _ hsc => absurd hsc (List.not_mem_nil _)⟩
  | cons a rest ih =>
    obtain ⟨b, rest', hab, htail, rfl⟩ := List.forall₂_cons_left_iff.mp hrel
    obtain ⟨e1, hb⟩ := line_bytes_same_one a b hab (hrows a (List.mem_cons_self _ _)).1
      (hrows a (List.mem_cons_self _ _)).2 (hacc a (List.mem_cons_self _ _))
    obtain ⟨e2, hrest⟩ := ih rest' htail
      (fun sc hsc => hrows sc (List.mem_cons_of_mem _ hsc))
      (fun sc hsc => hacc sc (List.mem_cons_of_mem _ hsc))
    refine ⟨?_, fun sc hsc => ?_⟩
    · rw [List.map_cons, List.map_cons, e1, e2]
    · rcases List.mem_cons.mp hsc with rfl | hsc
      · exact hb
      · exact hrest sc hsc

/-! ## Claims on sequences, frames and the first byte -/

/-- C14 (the code departs from the claim). The source lines `FIM 2 5A`,
`JMS 2` assemble without error to `[0x24, 0x5A, 0x52, 0x5A]`: the call for
`JMS 2` assigns only `mod1`, and its second byte is the low byte of `mod2`,
which there still holds the `0x5A` of the call before.  On its own, where
`mod2` holds `0`, the line `JMS 2` gives `[0x52, 0x00]`, so the concatenation of
the lines' own outputs is `[0x24, 0x5A, 0x52, 0x00]`, not the final buffer.
For a sequence without `JUN` and `JMS` lines that assembles without error, the
final contents are the concatenation, in order, of the bytes of each line
assembled on its own from the empty buffer, whatever the unassigned locals
hold in either setting, and `code_pos` is its length. -/
theorem C14_stale_operand_breaks_concatenation :
    (same_line ⟨2, "JMS", 0x2, 0x5A⟩ ⟨2, "JMS", 0x2, 0x00⟩ ∧
      (∃ s, assemble_lines [⟨3, "FIM", 0x2, 0x5A⟩, ⟨2, "JMS", 0x2, 0x5A⟩] State.init
          = Except.ok s ∧ s.bytes = [0x24, 0x5A, 0x52, 0x5A]) ∧
      line_bytes ⟨3, "FIM", 0x2, 0x5A⟩ = [0x24, 0x5A] ∧
      line_bytes ⟨2, "JMS", 0x2, 0x00⟩ = [0x52, 0x00] ∧
      [0x24, 0x5A, 0x52, 0x5A]
        ≠ line_bytes ⟨3, "FIM", 0x2, 0x5A⟩ ++ line_bytes ⟨2, "JMS", 0x2, 0x00⟩) ∧
    (∀ (calls alone : List Scanned) (s : State),
      List.Forall₂ same_line calls alone →
      (∀ sc ∈ calls, sc.mnemonic ≠ "JUN" ∧ sc.mnemonic ≠ "JMS") →
      assemble_lines calls State.init = Except.ok s →
      s.bytes = (alone.map line_bytes).flatten ∧
      s.code_pos = (alone.map line_bytes).flatten.length ∧
      ∀ sc ∈ alone, ∃ s1, assemble_line sc State.init = Except.ok s1 ∧
        s1.bytes = line_bytes sc) := by
  refine ⟨⟨?_, ⟨_, rfl, by decide⟩, by decide, by decide, by decide⟩, ?_⟩
  · unfold same_line
    decide
  · intro calls alone s hrel hrows h
    obtain ⟨h1, h2, h3⟩ := assemble_lines_bytes calls State.init s h
    obtain ⟨e, hacc⟩ := line_bytes_same calls alone hrel hrows h3
    rw [e] at h1 h2
    refine ⟨h1, ?_, fun sc hsc => ?_⟩
    · rw [h2]
      exact Nat.zero_add _
    · obtain ⟨s1, hs1⟩ := hacc sc hsc
      refine ⟨s1, hs1, ?_⟩
      unfold line_bytes
      rw [hs1]
      rfl

/-- C15 (the code departs from the claim). The line `JUN a` is accepted with
one parsed operand, and its second byte is the low byte of `mod2`, a local that
`sscanf_s` did not assign: two runs of the same line that find different values
there give `[0x41, 0x00]` and `[0x41, 0xFF]`.  For every row other than `JUN`
and `JMS` the outcome of a call is fixed by the mnemonic, the operand count and
the operands that were parsed. -/
theorem C15_unparsed_operand_in_output :
    (∀ a g : Int, ∃ s, assemble_lines [⟨2, "JUN", a, g⟩] State.init = Except.ok s ∧
      s.bytes = [64 + (a % 16).toNat, (g % 256).toNat]) ∧
    line_bytes ⟨2, "JUN", 0x1, 0x00⟩ = [0x41, 0x00] ∧
    line_bytes ⟨2, "JUN", 0x1, 0xFF⟩ = [0x41, 0xFF] ∧
    (∀ inst ∈ instructions, inst.mnemonic ≠ "JUN" → inst.mnemonic ≠ "JMS" →
      ∀ (sc sc' : Scanned) (s : State),
        sc.mnemonic = inst.mnemonic → sc'.mnemonic = inst.mnemonic →
        sc'.num_mods = sc.num_mods →
        (sc.num_mods ≥ 2 → sc'.mod1 = sc.mod1) →
        (sc.num_mods ≥ 3 → sc'.mod2 = sc.mod2) →
        assemble_line sc' s = assemble_line sc s) := by
  have hin : (⟨"JUN", 0x04, 1, .OPCODE_ADDR, .ADDRESS⟩ : Instruction) ∈ instructions := by
    decide
  refine ⟨fun a g => ?_, by decide, by decide, ?_⟩
  · show ∃ s, (assemble_line ⟨2, "JUN", a, g⟩ State.init >>= assemble_lines []) = _ ∧ _
    rw [assemble_line_exact _ hin ⟨2, "JUN", a, g⟩ rfl
        (by show (2 : Int) - 1 = 1; decide) State.init,
      emit_word0_nibble _ (Or.inr (Or.inl rfl)),
      two_bytes _ (Or.inl rfl) _ _ _ (by decide)]
    refine ⟨_, rfl, ?_⟩
    show State.bytes ⟨_, 0 + 2⟩ = _
    rw [show State.init.code_pos = 0 from rfl, bytes_push2]
    rfl
  · intro inst hin hj hm sc sc' s hsc hsc' hnum h1 h2
    exact assemble_line_parsed inst hin hj hm sc sc' s hsc hsc' hnum h1 h2

/-- C16. When a call of `assemble_line` has ended, returned or stopped in an
error, every cell below the old position `p` holds what it held, and the new
position `p'` satisfies `p <= p' <= p + 2`. -/
theorem C16_append_only (sc : Scanned) (s : State) :
    (∀ i, i < s.code_pos → (globals_after (assemble_line sc s)).code i = s.code i) ∧
    s.code_pos ≤ (globals_after (assemble_line sc s)).code_pos ∧
    (globals_after (assemble_line sc s)).code_pos ≤ s.code_pos + 2 := by
  obtain ⟨h1, h2, h3, _⟩ := assemble_line_after sc s
  exact ⟨fun i hi => h1 i (Or.inl hi), h2, h3⟩

/-- C17. For a line whose text before the first semicolon or newline is empty,
the body of the loop of `assemble_file` returns the globals as they were,
whatever `assemble_line` would have done: it is not called. -/
theorem C17_blank_line_skipped (scan : List Char → Scanned) (line : List Char) (s : State)
    (h : strip_line line = []) :
    assemble_file_step scan line s = Except.ok s := by
  unfold assemble_file_step
  simp only [h, List.length_nil, gt_iff_lt, Nat.lt_irrefl, if_false]

/-- C17 at the empty line, at a line that is only a newline, and at a comment
line, with a scan whose mnemonic `assemble_line` would reject. -/
theorem C17_blank_line_skipped_witness :
    assemble_file_step (fun _ => ⟨1, "XYZ", 0, 0⟩) [] State.init = Except.ok State.init ∧
    assemble_file_step (fun _ => ⟨1, "XYZ", 0, 0⟩) ['\n'] State.init
      = Except.ok State.init ∧
    assemble_file_step (fun _ => ⟨1, "XYZ", 0, 0⟩) [';', ' ', 'N', 'O', 'P', '\n'] State.init
      = Except.ok State.init ∧
    assemble_line ⟨1, "XYZ", 0, 0⟩ State.init
      = Except.error ⟨"Invalid mnemonic", State.init⟩ :=
  ⟨C17_blank_line_skipped _ [] State.init (by decide),
   C17_blank_line_skipped _ ['\n'] State.init (by decide),
   C17_blank_line_skipped _ [';', ' ', 'N', 'O', 'P', '\n'] State.init (by decide),
   rfl⟩

/-- C18. From the initial globals, when any finite sequence of `assemble_line`
calls has ended, returned or stopped in an error, `0 <= code_pos <= 4096`, and
no cell at index 4096 or above has been written.  A call of `emit_byte` that
stores does so at index `code_pos < 4096`; one that finds `code_pos >= 4096`
stops without storing. -/
theorem C18_buffer_bounds (lines : List Scanned) :
    0 ≤ (globals_after (assemble_lines lines State.init)).code_pos ∧
    (globals_after (assemble_lines lines State.init)).code_pos ≤ 4096 ∧
    (∀ i, 4096 ≤ i →
      (globals_after (assemble_lines lines State.init)).code i = State.init.code i) ∧
    (∀ (b : Nat) (s s' : State), emit_byte b s = Except.ok s' →
      s.code_pos < 4096 ∧ s'.code = Function.update s.code s.code_pos b ∧
      s'.code_pos = s.code_pos + 1) ∧
    (∀ (b : Nat) (s : State) (e : Halt), emit_byte b s = Except.error e →
      4096 ≤ s.code_pos ∧ e.state = s) := by
  obtain ⟨h1, h2⟩ := assemble_lines_after lines State.init (by decide)
  refine ⟨Nat.zero_le _, h1, h2, fun b s s' h => ?_, fun b s e h => ?_⟩
  · by_cases hp : s.code_pos < MAX_CODE
    · rw [emit_byte_ok b s hp] at h
      cases h
      exact ⟨hp, rfl, rfl⟩
    · rw [emit_byte_full b s (by omega)] at h
      cases h
  · by_cases hp : s.code_pos < MAX_CODE
    · rw [emit_byte_ok b s hp] at h
      cases h
    · rw [emit_byte_full b s (by omega)] at h
      cases h
      exact ⟨by show MAX_CODE ≤ s.code_pos; omega, rfl⟩

/-- C19. Take two table entries whose first-word format is not `NONE`, and for
each a line with its mnemonic and required operand count, any operand values,
assembled with room for a byte.  If the first bytes stored are equal, the two
entries are the same entry.  The first byte of an `OPCODE_REGPAIR_0` entry
(`FIM`, `FIN`) has bit 0 clear and that of an `OPCODE_REGPAIR_1` entry (`SRC`,
`JIN`) has bit 0 set. -/
theorem C19_first_byte_identifies (a b : Instruction)
    (ha : a ∈ instructions) (hb : b ∈ instructions)
    (hwa : a.word0_format ≠ WordFormat.NONE) (hwb : b.word0_format ≠ WordFormat.NONE)
    (sca scb : Scanned) (hma : sca.mnemonic = a.mnemonic) (hmb : scb.mnemonic = b.mnemonic)
    (hna : sca.num_mods - 1 = a.num_modifiers) (hnb : scb.num_mods - 1 = b.num_modifiers)
    (s t : State) (hs : s.code_pos < MAX_CODE) (ht : t.code_pos < MAX_CODE) :
    ((globals_after (assemble_line sca s)).code s.code_pos
        = (globals_after (assemble_line scb t)).code t.code_pos → a = b) ∧
    (a.word0_format = WordFormat.OPCODE_REGPAIR_0 →
      (globals_after (assemble_line sca s)).code s.code_pos % 2 = 0) ∧
    (a.word0_format = WordFormat.OPCODE_REGPAIR_1 →
      (globals_after (assemble_line sca s)).code s.code_pos % 2 = 1) := by
  obtain ⟨ba, hba, hia, hoa, h0a, h1a⟩ :=
    first_byte a ⟨hwa, (word0_entries a ha).1, (word0_entries a ha).2⟩ sca.mod1
  obtain ⟨bb, hbb, hib, hob, h0b, h1b⟩ :=
    first_byte b ⟨hwb, (word0_entries b hb).1, (word0_entries b hb).2⟩ scb.mod1
  have ea : (globals_after (assemble_line sca s)).code s.code_pos = ba := by
    rw [assemble_line_exact a ha sca hma hna s, hba]
    exact (first_byte_kept a ba sca.mod2 s hs).1
  have eb : (globals_after (assemble_line scb t)).code t.code_pos = bb := by
    rw [assemble_line_exact b hb scb hmb hnb t, hbb]
    exact (first_byte_kept b bb scb.mod2 t ht).1
  rw [ea, eb]
  refine ⟨fun heq => ?_, h0a, h1a⟩
  by_contra hne
  rcases first_byte_entries a ha b hb hwa hwb hne with h | ⟨h1, h2, h3⟩ | ⟨h1, h2⟩ | ⟨h1, h2⟩
  · apply h
    rw [← hia, ← hib, heq]
  · apply h3
    rw [← hoa h1, ← hob h2, heq]
  · have := h0a h1
    have := h1b h2
    omega
  · have := h1a h1
    have := h0b h2
    omega

/-- C19 at `FIM 2 5A` against `SRC 2`, which share the opcode 2: the first
bytes differ, `FIM` has bit 0 clear and `SRC` has it set. -/
theorem C19_first_byte_identifies_witness :
    (globals_after (assemble_line ⟨3, "FIM", 0x2, 0x5A⟩ State.init)).code 0
      ≠ (globals_after (assemble_line ⟨2, "SRC", 0x2, 0⟩ State.init)).code 0 ∧
    (globals_after (assemble_line ⟨3, "FIM", 0x2, 0x5A⟩ State.init)).code 0 % 2 = 0 ∧
    (globals_after (assemble_line ⟨2, "SRC", 0x2, 0⟩ State.init)).code 0 % 2 = 1 := by
  have hfs := C19_first_byte_identifies
    ⟨"FIM", 0x02, 2, .OPCODE_REGPAIR_0, .DATA⟩ ⟨"SRC", 0x02, 1, .OPCODE_REGPAIR_1, .NONE⟩
    (by decide) (by decide) (by decide) (by decide)
    ⟨3, "FIM", 0x2, 0x5A⟩ ⟨2, "SRC", 0x2, 0⟩ rfl rfl (by decide) (by decide)
    State.init State.init (by decide) (by decide)
  have hsf := C19_first_byte_identifies
    ⟨"SRC", 0x02, 1, .OPCODE_REGPAIR_1, .NONE⟩ ⟨"FIM", 0x02, 2, .OPCODE_REGPAIR_0, .DATA⟩
    (by decide) (by decide) (by decide) (by decide)
    ⟨2, "SRC", 0x2, 0⟩ ⟨3, "FIM", 0x2, 0x5A⟩ rfl rfl (by decide) (by decide)
    State.init State.init (by decide) (by decide)
  exact ⟨fun h => absurd (hfs.1 h) (by decide), hfs.2.1 rfl, hsf.2.2 rfl⟩

end I4004
